import Mathlib

/-!
# Verification of the streaming CSV year-partitioner (`src/split_data.py`)

Shallow embedding of the partitioner: the pure key parser `parse_year`,
the bounded LRU `WriterCache` over an explicit file-system model, and the
row-routing loop `split_csv_by_year`.  File contents are modelled as lists
of written records (one header record or one data row per physical line);
the OS file system is an association list from path strings to contents.
I/O failure at file-open time is modelled by an injectable failure oracle
(`ofail`); `noFail` is the oracle under which every open succeeds.
-/

namespace SplitData

/-! ## Generic association lists (Python `dict` / file-system maps) -/

/-- First-match lookup in an association list. -/
def alGet {α β : Type} [DecidableEq α] : List (α × β) → α → Option β
  | [], _ => none
  | (a, b) :: t, k => if a = k then some b else alGet t k

/-- Update the first binding of `k` (or append a fresh one): Python `d[k] = v`. -/
def alSet {α β : Type} [DecidableEq α] : List (α × β) → α → β → List (α × β)
  | [], k, v => [(k, v)]
  | (a, b) :: t, k, v => if a = k then (a, v) :: t else (a, b) :: alSet t k v

theorem alGet_alSet {α β : Type} [DecidableEq α] (l : List (α × β)) (k k' : α) (v : β) :
    alGet (alSet l k v) k' = if k' = k then some v else alGet l k' := by
  induction l with
  | nil =>
    by_cases h : k' = k
    · simp [alSet, alGet, h]
    · have h' : ¬ k = k' := fun hh => h hh.symm
      simp [alSet, alGet, h, h']
  | cons hd t ih =>
    obtain ⟨a, b⟩ := hd
    by_cases hak : a = k
    · subst hak
      by_cases h : k' = a
      · simp [alSet, alGet, h]
      · have h' : ¬ a = k' := fun hh => h hh.symm
        simp [alSet, alGet, h, h']
    · by_cases h : a = k'
      · subst h
        simp [alSet, alGet, hak]
      · simp [alSet, alGet, hak, h, ih]

theorem alGet_mem {α β : Type} [DecidableEq α] {l : List (α × β)} {k : α} {v : β}
    (h : alGet l k = some v) : (k, v) ∈ l := by
  induction l with
  | nil => simp [alGet] at h
  | cons hd t ih =>
    obtain ⟨a, b⟩ := hd
    by_cases hak : a = k
    · subst hak; simp [alGet] at h; simp [h]
    · simp [alGet, hak] at h
      exact List.mem_cons_of_mem _ (ih h)

/-- Removing every binding of key `k` (Python `OrderedDict.pop`, which removes
the unique binding). -/
def alRemove {α β : Type} [DecidableEq α] (l : List (α × β)) (k : α) : List (α × β) :=
  l.filter (fun e => e.1 ≠ k)

theorem alGet_alRemove {α β : Type} [DecidableEq α] (l : List (α × β)) (k k' : α) :
    alGet (alRemove l k) k' = if k' = k then none else alGet l k' := by
  induction l with
  | nil => simp [alRemove, alGet]
  | cons hd t ih =>
    obtain ⟨a, b⟩ := hd
    by_cases hak : a = k
    · subst hak
      have hstep : alRemove ((a, b) :: t) a = alRemove t a := by
        simp [alRemove, List.filter_cons]
      rw [hstep, ih]
      by_cases h : k' = a
      · simp [h]
      · have h' : ¬ a = k' := fun hh => h hh.symm
        simp [alGet, h, h']
    · have hstep : alRemove ((a, b) :: t) k = (a, b) :: alRemove t k := by
        simp [alRemove, List.filter_cons, hak]
      rw [hstep]
      by_cases h : a = k'
      · subst h
        have h' : ¬ a = k := hak
        simp [alGet, h']
      · simp [alGet, h, ih]

theorem alRemove_subset {α β : Type} [DecidableEq α] (l : List (α × β)) (k : α) :
    ∀ e, e ∈ alRemove l k → e ∈ l := by
  intro e he
  exact List.mem_of_mem_filter he

theorem alRemove_length_lt {α β : Type} [DecidableEq α] {l : List (α × β)} {k : α} {v : β}
    (h : alGet l k = some v) : (alRemove l k).length < l.length := by
  induction l with
  | nil => simp [alGet] at h
  | cons hd t ih =>
    obtain ⟨a, b⟩ := hd
    by_cases hak : a = k
    · subst hak
      have hle : (alRemove t a).length ≤ t.length := List.length_filter_le _ _
      have hstep : alRemove ((a, b) :: t) a = alRemove t a := by
        simp [alRemove, List.filter_cons]
      rw [hstep, List.length_cons]
      omega
    · simp only [alGet, if_neg (fun hh : a = k => hak hh)] at h
      have hlt := ih h
      have hstep : alRemove ((a, b) :: t) k = (a, b) :: alRemove t k := by
        simp [alRemove, List.filter_cons, hak]
      rw [hstep]
      simp only [List.length_cons]
      omega

/-! ## Decimal rendering of naturals (Python `f"{n}"` and `f"{n:02d}"`) -/

/-- The decimal digit character for `n < 10`. -/
def digitCh (n : Nat) : Char := Char.ofNat ('0'.toNat + n)

/-- Decimal digits, most significant first, with recursion fuel (kept
structural so the kernel can evaluate concrete paths). -/
def natCharsF : Nat → Nat → List Char
  | 0, _ => []
  | fuel + 1, n => if n < 10 then [digitCh n] else natCharsF fuel (n / 10) ++ [digitCh (n % 10)]

/-- Decimal digits of `n`, most significant first: models Python `f"{n}"`. -/
def natChars (n : Nat) : List Char := natCharsF (n + 1) n

theorem natCharsF_fuel_irrel : ∀ (f g n : Nat), n < f → n < g →
    natCharsF f n = natCharsF g n := by
  intro f
  induction f with
  | zero => intro g n hf; omega
  | succ f ih =>
    intro g n hf hg
    cases g with
    | zero => omega
    | succ g =>
      show (if n < 10 then [digitCh n] else natCharsF f (n / 10) ++ [digitCh (n % 10)])
        = (if n < 10 then [digitCh n] else natCharsF g (n / 10) ++ [digitCh (n % 10)])
      by_cases h : n < 10
      · rw [if_pos h, if_pos h]
      · rw [if_neg h, if_neg h]
        have hdiv : n / 10 < n := Nat.div_lt_self (by omega) (by omega)
        rw [ih g (n / 10) (by omega) (by omega)]

theorem natChars_unfold (n : Nat) :
    natChars n = if n < 10 then [digitCh n] else natChars (n / 10) ++ [digitCh (n % 10)] := by
  show (if n < 10 then [digitCh n] else natCharsF n (n / 10) ++ [digitCh (n % 10)]) = _
  by_cases h : n < 10
  · rw [if_pos h, if_pos h]
  · rw [if_neg h, if_neg h]
    have hdiv : n / 10 < n := Nat.div_lt_self (by omega) (by omega)
    rw [natCharsF_fuel_irrel n (n / 10 + 1) (n / 10) (by omega) (by omega)]
    rfl

/-- Numeric value of a digit character. -/
def dval (c : Char) : Nat := c.toNat - '0'.toNat

/-- Value of a decimal digit string, most significant first. -/
def chars2nat (l : List Char) : Nat := l.foldl (fun a c => 10 * a + dval c) 0

theorem chars2nat_go (l : List Char) (a : Nat) :
    l.foldl (fun a c => 10 * a + dval c) a =
      a * 10 ^ l.length + l.foldl (fun a c => 10 * a + dval c) 0 := by
  induction l generalizing a with
  | nil => simp
  | cons c t ih =>
    simp only [List.foldl_cons, List.length_cons]
    rw [ih (10 * a + dval c), ih (10 * 0 + dval c)]
    ring

theorem chars2nat_append (l : List Char) (c : Char) :
    chars2nat (l ++ [c]) = 10 * chars2nat l + dval c := by
  simp only [chars2nat, List.foldl_append, List.foldl_cons, List.foldl_nil]

theorem dval_digitCh {n : Nat} (h : n < 10) : dval (digitCh n) = n := by
  interval_cases n <;> rfl

theorem chars2nat_natChars (n : Nat) : chars2nat (natChars n) = n := by
  induction n using Nat.strong_induction_on with
  | _ n ih =>
    rw [natChars_unfold]
    by_cases h : n < 10
    · rw [if_pos h]
      show chars2nat [digitCh n] = n
      simp [chars2nat, dval_digitCh h]
    · rw [if_neg h]
      rw [chars2nat_append, ih (n / 10) (Nat.div_lt_self (by omega) (by omega)),
        dval_digitCh (Nat.mod_lt _ (by omega))]
      omega

theorem natChars_injective : Function.Injective natChars := by
  intro a b h
  have := chars2nat_natChars a
  rw [h, chars2nat_natChars] at this
  omega

theorem digitCh_isDigit {n : Nat} (h : n < 10) : (digitCh n).isDigit = true := by
  interval_cases n <;> rfl

theorem natChars_all_digits (n : Nat) : ∀ c ∈ natChars n, c.isDigit = true := by
  induction n using Nat.strong_induction_on with
  | _ n ih =>
    rw [natChars_unfold]
    by_cases h : n < 10
    · rw [if_pos h]
      intro c hc
      simp at hc
      subst hc
      exact digitCh_isDigit h
    · rw [if_neg h]
      intro c hc
      rcases List.mem_append.1 hc with h1 | h1
      · exact ih (n / 10) (Nat.div_lt_self (by omega) (by omega)) c h1
      · simp at h1
        subst h1
        exact digitCh_isDigit (Nat.mod_lt _ (by omega))

/-- Two-digit zero-padded decimal: models Python `f"{n:02d}"` for `n : Nat`. -/
def pad2 (n : Nat) : List Char :=
  if n < 10 then '0' :: natChars n else natChars n

theorem chars2nat_pad2 (n : Nat) : chars2nat (pad2 n) = n := by
  unfold pad2
  by_cases h : n < 10
  · rw [if_pos h]
    show List.foldl _ (10 * 0 + dval '0') (natChars n) = n
    have h0 : 10 * 0 + dval '0' = 0 := rfl
    rw [h0]
    exact chars2nat_natChars n
  · rw [if_neg h]
    exact chars2nat_natChars n

theorem pad2_injective : Function.Injective pad2 := by
  intro a b h
  have := chars2nat_pad2 a
  rw [h, chars2nat_pad2] at this
  omega

theorem pad2_all_digits (n : Nat) : ∀ c ∈ pad2 n, c.isDigit = true := by
  unfold pad2
  by_cases h : n < 10
  · rw [if_pos h]
    intro c hc
    rcases List.mem_cons.1 hc with h1 | h1
    · subst h1; rfl
    · exact natChars_all_digits n c h1
  · rw [if_neg h]
    exact natChars_all_digits n

/-! ## Python `str.strip` on character lists -/

/-- Python `str.strip()`: drop leading and trailing whitespace. -/
def stripChars (l : List Char) : List Char :=
  ((l.dropWhile Char.isWhitespace).reverse.dropWhile Char.isWhitespace).reverse

theorem dropWhile_eq_self_of_head {p : Char → Bool} :
    ∀ {l : List Char}, (∀ c, l.head? = some c → p c = false) → l.dropWhile p = l
  | [], _ => rfl
  | c :: t, h => by
    have := h c rfl
    simp [List.dropWhile, this]

theorem stripChars_eq_self {l : List Char}
    (h1 : ∀ c, l.head? = some c → c.isWhitespace = false)
    (h2 : ∀ c, l.getLast? = some c → c.isWhitespace = false) :
    stripChars l = l := by
  unfold stripChars
  rw [dropWhile_eq_self_of_head h1]
  rw [dropWhile_eq_self_of_head (by
    intro c hc
    apply h2
    rw [List.getLast?_eq_head?_reverse]
    exact hc)]
  simp

/-! ## The key parser `parse_year` (src/split_data.py lines 10-42)

`parse_year` strips the input, fails on blank input, then tries
`datetime.fromisoformat`, then four explicit `strptime` formats, then a
first-four-digits heuristic, and otherwise raises with the original string
embedded.  The library date parsers are modelled by shape predicates over the
character list plus calendar validity (the exact ranges `datetime` enforces:
year ≥ 1, month 1-12, day 1-days_in_month with Gregorian leap years,
hour ≤ 23, minute ≤ 59, second ≤ 59).  `fromisoformat` is modelled on the
forms documented in the source (date, or date plus any one-character
separator and HH:MM:SS); `strptime` is modelled on full two-digit fields.
Both models agree with the real parsers on the returned year for every
string they accept (the year is always the leading four digits), which is
the only observable `parse_year` exposes. -/

/-- `"YYYY-MM-DD"`-shaped (digits in digit positions, `sep` as separator). -/
def dateShape (sep : Char) : List Char → Bool
  | [y1, y2, y3, y4, s1, m1, m2, s2, d1, d2] =>
      y1.isDigit && y2.isDigit && y3.isDigit && y4.isDigit && (s1 = sep) &&
      m1.isDigit && m2.isDigit && (s2 = sep) && d1.isDigit && d2.isDigit
  | _ => false

/-- `"YYYY-MM-DD*HH:MM:SS"`-shaped: date with `dsep`, then one separator
character (arbitrary when `anySep`, else exactly `tsep`), then a time. -/
def dtShape (dsep : Char) (anySep : Bool) (tsep : Char) : List Char → Bool
  | [y1, y2, y3, y4, s1, m1, m2, s2, d1, d2, sp, h1, h2, c1, i1, i2, c2, e1, e2] =>
      y1.isDigit && y2.isDigit && y3.isDigit && y4.isDigit && (s1 = dsep) &&
      m1.isDigit && m2.isDigit && (s2 = dsep) && d1.isDigit && d2.isDigit &&
      (anySep || (sp = tsep)) &&
      h1.isDigit && h2.isDigit && (c1 = ':') && i1.isDigit && i2.isDigit &&
      (c2 = ':') && e1.isDigit && e2.isDigit
  | _ => false

/-- Two-digit decimal field starting at position `i`. -/
def num2At (l : List Char) (i : Nat) : Nat := chars2nat ((l.drop i).take 2)

/-- Four-digit decimal field starting at position `i`. -/
def num4At (l : List Char) (i : Nat) : Nat := chars2nat ((l.drop i).take 4)

/-- Gregorian leap year, as Python's `calendar`/`datetime` define it. -/
def isLeap (y : Nat) : Bool := y % 4 = 0 && (y % 100 ≠ 0 || y % 400 = 0)

/-- Days in a month, as `datetime` validates day-of-month. -/
def daysInMonth (y m : Nat) : Nat :=
  if m = 2 then (if isLeap y then 29 else 28)
  else if m = 4 || m = 6 || m = 9 || m = 11 then 30
  else 31

/-- The date fields at positions 0-9 form a `datetime`-valid date. -/
def validDate (l : List Char) : Bool :=
  let y := num4At l 0
  let mo := num2At l 5
  let d := num2At l 8
  1 ≤ y && 1 ≤ mo && mo ≤ 12 && 1 ≤ d && d ≤ daysInMonth y mo

/-- The time fields at positions 11-18 form a `datetime`-valid time. -/
def validTime (l : List Char) : Bool :=
  num2At l 11 ≤ 23 && num2At l 14 ≤ 59 && num2At l 17 ≤ 59

/-- Model of `datetime.fromisoformat(s).year` on the forms the source uses:
`YYYY-MM-DD`, optionally followed by any one separator character and
`HH:MM:SS`, with full calendar validation. -/
def fromisoY (l : List Char) : Option Nat :=
  if dateShape '-' l && validDate l then some (num4At l 0)
  else if dtShape '-' true ' ' l && validDate l && validTime l then some (num4At l 0)
  else none

/-- Model of `datetime.strptime(s, "%Y-%m-%d %H:%M:%S").year` (and the `/`
variant), on full two-digit fields. -/
def strpDT (dsep : Char) (l : List Char) : Option Nat :=
  if dtShape dsep false ' ' l && validDate l && validTime l then some (num4At l 0)
  else none

/-- Model of `datetime.strptime(s, "%Y-%m-%d").year` (and the `/` variant). -/
def strpD (dsep : Char) (l : List Char) : Option Nat :=
  if dateShape dsep l && validDate l then some (num4At l 0)
  else none

/-- Body of `parse_year` on the stripped character list; `orig` is the raw
input, used only in the final error message (`f"... {dt_str!r}"`, whose
`repr` is modelled by surrounding quotes). -/
def parseYearCore (orig : String) (l : List Char) : Except String Nat :=
  if l.isEmpty then .error "Empty datetime string"
  else
    match fromisoY l with
    | some y => .ok y
    | none =>
      match strpDT '-' l <|> strpD '-' l <|> strpDT '/' l <|> strpD '/' l with
      | some y => .ok y
      | none =>
        if 4 ≤ l.length && (l.take 4).all Char.isDigit then .ok (chars2nat (l.take 4))
        else .error ("Unrecognized datetime format: '" ++ orig ++ "'")

/-- `parse_year` from src/split_data.py: strip, then the parser chain. -/
def parse_year (s : String) : Except String Nat :=
  parseYearCore s (stripChars s.data)

theorem num4At_zero (l : List Char) : num4At l 0 = chars2nat (l.take 4) := rfl

theorem fromisoY_cases (l : List Char) :
    fromisoY l = none ∨ fromisoY l = some (chars2nat (l.take 4)) := by
  unfold fromisoY
  split
  · right; rw [num4At_zero]
  · split
    · right; rw [num4At_zero]
    · left; rfl

theorem strpDT_cases (sep : Char) (l : List Char) :
    strpDT sep l = none ∨ strpDT sep l = some (chars2nat (l.take 4)) := by
  unfold strpDT
  split
  · right; rw [num4At_zero]
  · left; rfl

theorem strpD_cases (sep : Char) (l : List Char) :
    strpD sep l = none ∨ strpD sep l = some (chars2nat (l.take 4)) := by
  unfold strpD
  split
  · right; rw [num4At_zero]
  · left; rfl

/-- Whenever the stripped input starts with four digits, the whole chain
returns their value: every parser model that can accept such a string
returns exactly the leading four digits as the year, and the heuristic
fallback does too. -/
theorem parseYearCore_digits (orig : String) {l : List Char}
    (h4 : 4 ≤ l.length) (hd : (l.take 4).all Char.isDigit = true) :
    parseYearCore orig l = .ok (chars2nat (l.take 4)) := by
  have hne : l.isEmpty = false := by
    cases l with
    | nil => simp at h4
    | cons c t => rfl
  unfold parseYearCore
  rw [hne]
  simp only [Bool.false_eq_true, if_false]
  rcases fromisoY_cases l with hiso | hiso <;> rw [hiso]
  · rcases strpDT_cases '-' l with h1 | h1 <;> rw [h1]
    · rcases strpD_cases '-' l with h2 | h2 <;> simp only [Option.none_orElse, Option.some_orElse, h2]
      · rcases strpDT_cases '/' l with h3 | h3 <;> simp only [Option.none_orElse, Option.some_orElse, h3]
        · rcases strpD_cases '/' l with h5 | h5 <;> simp only [Option.none_orElse, Option.some_orElse, h5]
          have hcond : (4 ≤ l.length && (l.take 4).all Char.isDigit) = true := by
            rw [hd, Bool.and_true]
            exact decide_eq_true h4
          rw [hcond]
          simp
    · simp

theorem not_ws_of_digit {c : Char} (h : c.isDigit = true) : c.isWhitespace = false := by
  by_contra hw
  rw [Bool.not_eq_false] at hw
  simp only [Char.isWhitespace, Bool.or_eq_true, decide_eq_true_eq] at hw
  rcases hw with ((h1 | h1) | h1) | h1 <;> (subst h1; exact absurd h (by decide))

theorem dateShape_props {sep : Char} {l : List Char} (h : dateShape sep l = true) :
    l.length = 10 ∧ (l.take 4).all Char.isDigit = true ∧
    (∀ c, l.head? = some c → c.isWhitespace = false) ∧
    (∀ c, l.getLast? = some c → c.isWhitespace = false) := by
  unfold dateShape at h
  split at h
  case _ y1 y2 y3 y4 s1 m1 m2 s2 d1 d2 =>
    simp only [Bool.and_eq_true] at h
    refine ⟨rfl, ?_, ?_, ?_⟩
    · have take4 : ([y1, y2, y3, y4, s1, m1, m2, s2, d1, d2] : List Char).take 4
          = [y1, y2, y3, y4] := rfl
      rw [take4]
      simp [h.1.1.1.1.1.1.1.1.1, h.1.1.1.1.1.1.1.1.2, h.1.1.1.1.1.1.1.2, h.1.1.1.1.1.1.2]
    · intro c hc
      simp only [List.head?] at hc
      cases hc
      exact not_ws_of_digit h.1.1.1.1.1.1.1.1.1
    · intro c hc
      have hlast : ([y1, y2, y3, y4, s1, m1, m2, s2, d1, d2] : List Char).getLast?
          = some d2 := rfl
      rw [hlast] at hc
      cases hc
      exact not_ws_of_digit h.2
  case _ =>
    exact absurd h (by simp)

theorem dtShape_props {dsep : Char} {anySep : Bool} {tsep : Char} {l : List Char}
    (h : dtShape dsep anySep tsep l = true) :
    l.length = 19 ∧ (l.take 4).all Char.isDigit = true ∧
    (∀ c, l.head? = some c → c.isWhitespace = false) ∧
    (∀ c, l.getLast? = some c → c.isWhitespace = false) := by
  unfold dtShape at h
  split at h
  case _ y1 y2 y3 y4 s1 m1 m2 s2 d1 d2 sp h1 h2 c1 i1 i2 c2 e1 e2 =>
    simp only [Bool.and_eq_true] at h
    obtain ⟨⟨⟨⟨⟨⟨⟨⟨⟨⟨⟨⟨⟨⟨⟨⟨⟨⟨hy1, hy2⟩, hy3⟩, hy4⟩, hs1⟩, hm1⟩, hm2⟩, hs2⟩, hd1⟩,
      hd2⟩, hsp⟩, hh1⟩, hh2⟩, hc1⟩, hi1⟩, hi2⟩, hc2⟩, he1⟩, he2⟩ := h
    refine ⟨rfl, ?_, ?_, ?_⟩
    · have take4 : ([y1, y2, y3, y4, s1, m1, m2, s2, d1, d2, sp,
          h1, h2, c1, i1, i2, c2, e1, e2] : List Char).take 4 = [y1, y2, y3, y4] := rfl
      rw [take4]
      simp [hy1, hy2, hy3, hy4]
    · intro c hc
      simp only [List.head?] at hc
      cases hc
      exact not_ws_of_digit hy1
    · intro c hc
      have hlast : ([y1, y2, y3, y4, s1, m1, m2, s2, d1, d2, sp,
          h1, h2, c1, i1, i2, c2, e1, e2] : List Char).getLast? = some e2 := rfl
      rw [hlast] at hc
      cases hc
      exact not_ws_of_digit he2
  case _ =>
    exact absurd h (by simp)

/-- The five documented formats, as full-string shape matches. -/
def matchesFiveFormats (l : List Char) : Bool :=
  dtShape '-' false ' ' l || dtShape '-' false 'T' l || dateShape '-' l ||
  dtShape '/' false ' ' l || dateShape '/' l

theorem matchesFiveFormats_props {l : List Char} (h : matchesFiveFormats l = true) :
    4 ≤ l.length ∧ (l.take 4).all Char.isDigit = true ∧ stripChars l = l := by
  unfold matchesFiveFormats at h
  simp only [Bool.or_eq_true] at h
  have key : l.length = 10 ∨ l.length = 19 →
      (l.take 4).all Char.isDigit = true →
      (∀ c, l.head? = some c → c.isWhitespace = false) →
      (∀ c, l.getLast? = some c → c.isWhitespace = false) →
      4 ≤ l.length ∧ (l.take 4).all Char.isDigit = true ∧ stripChars l = l := by
    intro hlen hd hh hl
    refine ⟨by omega, hd, stripChars_eq_self hh hl⟩
  rcases h with (((h | h) | h) | h) | h
  · obtain ⟨a, b, c, d⟩ := dtShape_props h
    exact key (Or.inr a) b c d
  · obtain ⟨a, b, c, d⟩ := dtShape_props h
    exact key (Or.inr a) b c d
  · obtain ⟨a, b, c, d⟩ := dateShape_props h
    exact key (Or.inl a) b c d
  · obtain ⟨a, b, c, d⟩ := dtShape_props h
    exact key (Or.inr a) b c d
  · obtain ⟨a, b, c, d⟩ := dateShape_props h
    exact key (Or.inl a) b c d

/-- C7: every full-string match of one of the five documented datetime
formats parses to the year component of the string (its leading four-digit
`YYYY` field), and every string that is empty or whitespace-only (i.e.
strips to nothing) fails immediately with the empty-input error. -/
theorem parse_year_five_formats_and_blank (s : String) :
    (matchesFiveFormats s.data = true →
        parse_year s = .ok (chars2nat (s.data.take 4))) ∧
    (stripChars s.data = [] → parse_year s = .error "Empty datetime string") := by
  constructor
  · intro h
    obtain ⟨h4, hd, hstrip⟩ := matchesFiveFormats_props h
    unfold parse_year
    rw [hstrip]
    exact parseYearCore_digits s h4 hd
  · intro h
    unfold parse_year
    rw [h]
    rfl

/-- C7 witness: a concrete match of each kind and a whitespace-only input. -/
theorem parse_year_five_formats_and_blank_witness :
    (matchesFiveFormats "2020-05-06 07:08:09".data = true ∧
      parse_year "2020-05-06 07:08:09" = .ok (chars2nat ("2020-05-06 07:08:09".data.take 4)) ∧
      chars2nat ("2020-05-06 07:08:09".data.take 4) = 2020) ∧
    (stripChars "  ".data = [] ∧ parse_year "  " = .error "Empty datetime string") :=
  ⟨⟨by decide, (parse_year_five_formats_and_blank "2020-05-06 07:08:09").1 (by decide),
      by decide⟩,
    ⟨by decide, (parse_year_five_formats_and_blank "  ").2 (by decide)⟩⟩

/-- C8: for input that strips to a non-blank string on which every modelled
date-format parse attempt fails, `parse_year` returns the value of the first
four characters when they are all ASCII digits, and otherwise fails with an
error message embedding the original input.  ("Non-empty" is read as
non-blank, matching the claim's reference to the stripped string; blank
input is covered by the immediate empty-input failure of C7.) -/
theorem parse_year_fallback_behaviour (s : String)
    (hne : stripChars s.data ≠ [])
    (hiso : fromisoY (stripChars s.data) = none)
    (h1 : strpDT '-' (stripChars s.data) = none)
    (h2 : strpD '-' (stripChars s.data) = none)
    (h3 : strpDT '/' (stripChars s.data) = none)
    (h4 : strpD '/' (stripChars s.data) = none) :
    ((4 ≤ (stripChars s.data).length ∧
        ((stripChars s.data).take 4).all Char.isDigit = true) →
      parse_year s = .ok (chars2nat ((stripChars s.data).take 4))) ∧
    (¬(4 ≤ (stripChars s.data).length ∧
        ((stripChars s.data).take 4).all Char.isDigit = true) →
      ∃ pre post, parse_year s = .error (pre ++ s ++ post)) := by
  have hne' : (stripChars s.data).isEmpty = false := by
    cases hcase : stripChars s.data with
    | nil => exact absurd hcase hne
    | cons c t => rfl
  unfold parse_year parseYearCore
  rw [hne', hiso, h1, h2, h3, h4]
  simp only [Bool.false_eq_true, if_false, Option.none_orElse]
  constructor
  · rintro ⟨ha, hb⟩
    have hcond : (4 ≤ (stripChars s.data).length &&
        ((stripChars s.data).take 4).all Char.isDigit) = true := by
      rw [hb, Bool.and_true]
      exact decide_eq_true ha
    rw [hcond]
    simp
  · intro hcond
    have hcond' : (4 ≤ (stripChars s.data).length &&
        ((stripChars s.data).take 4).all Char.isDigit) = false := by
      rw [Bool.and_eq_false_iff]
      by_cases hl : 4 ≤ (stripChars s.data).length
      · right
        rcases Bool.eq_false_or_eq_true (((stripChars s.data).take 4).all Char.isDigit)
          with hb | hb
        · exact absurd ⟨hl, hb⟩ hcond
        · exact hb
      · left
        exact decide_eq_false hl
    rw [hcond']
    exact ⟨"Unrecognized datetime format: '", "'", by simp⟩

/-- C8 witness: a fallback success (digits then junk) and a fallback
failure (no leading digits), both failing every date-format model. -/
theorem parse_year_fallback_behaviour_witness :
    (stripChars "2020 vibes".data ≠ [] ∧
      fromisoY (stripChars "2020 vibes".data) = none ∧
      parse_year "2020 vibes" = .ok (chars2nat ((stripChars "2020 vibes".data).take 4)) ∧
      chars2nat ((stripChars "2020 vibes".data).take 4) = 2020) ∧
    (stripChars "May 6 2020".data ≠ [] ∧
      ∃ pre post, parse_year "May 6 2020" = .error (pre ++ "May 6 2020" ++ post)) := by
  constructor
  · refine ⟨by decide, by decide, ?_, by decide⟩
    exact (parse_year_fallback_behaviour "2020 vibes" (by decide) (by decide) (by decide)
      (by decide) (by decide) (by decide)).1 ⟨by decide, by decide⟩
  · refine ⟨by decide, ?_⟩
    exact (parse_year_fallback_behaviour "May 6 2020" (by decide) (by decide) (by decide)
      (by decide) (by decide) (by decide)).2 (by decide)

/-! ## Rows, file contents, and the file-system model -/

/-- A CSV row as `csv.DictReader` yields it: a mapping from column names to
string values. -/
def Row : Type := List (String × String)

instance : DecidableEq Row := by
  unfold Row
  infer_instance

/-- `row.get(col, "")`. -/
def rowGet (r : Row) (k : String) : String := (alGet r k).getD ""

/-- `row[k] = v` (dict item assignment). -/
def rowSet (r : Row) (k v : String) : Row := alSet r k v

/-- One physical line of an output CSV file: a header line (the field names
`DictWriter.writeheader` writes) or a data row. -/
inductive Entry where
  | header (fields : List String)
  | row (r : Row)
deriving DecidableEq

/-- The file system: path → file contents.  A missing path is a missing
file; `some []` is an existing zero-length file. -/
def FS : Type := List (String × List Entry)

instance : DecidableEq FS := by
  unfold FS
  infer_instance

/-- Append one written record to the file at `p` (creating it if absent). -/
def fsAppend (fs : FS) (p : String) (e : Entry) : FS :=
  match alGet fs p with
  | some c => alSet fs p (c ++ [e])
  | none => alSet fs p [e]

theorem alGet_fsAppend (fs : FS) (p q : String) (e : Entry) :
    alGet (fsAppend fs p e) q =
      if q = p then some ((alGet fs p).getD [] ++ [e]) else alGet fs q := by
  unfold fsAppend
  cases h : alGet fs p with
  | some c => simp only [h, alGet_alSet, Option.getD_some]
  | none => simp only [h, alGet_alSet, Option.getD_none, List.nil_append]

/-! ## The bounded LRU writer cache (src/split_data.py lines 44-100) -/

/-- `WriterCache.__init__`: `_year_state` maps a year to
`(rows_written, chunk_idx)`; `_cache` is the `OrderedDict` of open writers
in recency order, least recently used first, each bound to the path of the
segment file it was opened on. -/
structure WriterCache where
  out_dir : String
  header : List String
  max_open : Nat
  max_rows_per_file : Option Nat
  year_state : List (Nat × (Nat × Nat))
  cache : List (Nat × String)

/-- `self._year_state.get(year, (0, 0))`. -/
def ysGet (st : List (Nat × (Nat × Nat))) (y : Nat) : Nat × Nat := (alGet st y).getD (0, 0)

/-- The output path
`os.path.join(out_dir, f"weather_{year}_part_{chunk_idx:02d}.csv")`
(the join separator is `/`). -/
def partPath (outDir : String) (year chunk : Nat) : String :=
  ⟨outDir.data ++ "/weather_".data ++ natChars year ++ "_part_".data ++ pad2 chunk ++ ".csv".data⟩

/-- The eviction loop `while len(self._cache) >= self.max_open: popitem(last=False)`.
(With `max_open = 0` Python would raise `KeyError` on an empty dict; every
claim constrains `max_open ≥ 1`, where the loop stops before emptying.) -/
def evictLoop (maxOpen : Nat) : List (Nat × String) → List (Nat × String)
  | [] => []
  | e :: t => if maxOpen ≤ (e :: t).length then evictLoop maxOpen t else e :: t

/-- The rollover test `if self.max_rows_per_file and rows_written >= self.max_rows_per_file`
(Python truthiness: `None` and `0` are falsy). -/
def rollNeeded (c : WriterCache) (year : Nat) : Bool :=
  match c.max_rows_per_file with
  | some r => r != 0 && decide ((ysGet c.year_state year).1 ≥ r)
  | none => false

/-- `WriterCache.get_writer`.  Returns the updated cache and file system plus
the path of the acquired writer, or an error if the injected failure oracle
`ofail` makes the `open` call raise (in which case the rollover close and the
evictions have already mutated the cache, and the `_year_state` write at the
end of the method never runs — matching where the exception interrupts the
Python method body). -/
def get_writer (ofail : String → Bool) (c : WriterCache) (fs : FS) (year : Nat) :
    (WriterCache × FS) × Except String String :=
  let s0 := ysGet c.year_state year
  let roll := rollNeeded c year
  let c1 : WriterCache := if roll then { c with cache := alRemove c.cache year } else c
  let rows1 := if roll then 0 else s0.1
  let chunk1 := if roll then s0.2 + 1 else s0.2
  match alGet c1.cache year with
  | some p =>
      -- cache hit: pop and reinsert to mark most-recently used
      (({ c1 with
          cache := alRemove c1.cache year ++ [(year, p)],
          year_state := alSet c1.year_state year (rows1, chunk1) }, fs), .ok p)
  | none =>
      let c2 : WriterCache := { c1 with cache := evictLoop c1.max_open c1.cache }
      let p := partPath c1.out_dir year chunk1
      if ofail p then ((c2, fs), .error ("I/O error: '" ++ p ++ "'"))
      else
        let existed := (alGet fs p).isSome
        -- `open(out_path, "a")` creates an empty file when absent
        let fs1 := if existed then fs else alSet fs p ([] : List Entry)
        -- header exactly when the file did not exist or had zero size
        let fs2 := if existed = false ∨ alGet fs1 p = some ([] : List Entry) then
            fsAppend fs1 p (.header c1.header) else fs1
        (({ c2 with
            cache := c2.cache ++ [(year, p)],
            year_state := alSet c2.year_state year (rows1, chunk1) }, fs2), .ok p)

/-- `WriterCache.increment_row`. -/
def increment_row (c : WriterCache) (year : Nat) : WriterCache :=
  let s := ysGet c.year_state year
  { c with year_state := alSet c.year_state year (s.1 + 1, s.2) }

/-- `WriterCache.close_all`: close every handle and clear the cache. -/
def close_all (c : WriterCache) : WriterCache := { c with cache := [] }

/-- The oracle under which every `open` succeeds. -/
def noFail : String → Bool := fun _ => false

/-! ### Cache-size lemmas (claim C2) -/

theorem alRemove_of_none {α β : Type} [DecidableEq α] {l : List (α × β)} {k : α}
    (h : alGet l k = none) : alRemove l k = l := by
  induction l with
  | nil => rfl
  | cons hd t ih =>
    obtain ⟨a, b⟩ := hd
    by_cases hak : a = k
    · subst hak; simp [alGet] at h
    · simp only [alGet, if_neg (fun hh : a = k => hak hh)] at h
      have hstep : alRemove ((a, b) :: t) k = (a, b) :: alRemove t k := by
        simp [alRemove, List.filter_cons, hak]
      rw [hstep, ih h]

theorem alRemove_length_le {α β : Type} [DecidableEq α] (l : List (α × β)) (k : α) :
    (alRemove l k).length ≤ l.length :=
  List.length_filter_le _ _

theorem evictLoop_of_lt {maxOpen : Nat} : ∀ {l : List (Nat × String)},
    l.length < maxOpen → evictLoop maxOpen l = l
  | [], _ => rfl
  | e :: t, h => by
    unfold evictLoop
    rw [if_neg (by omega)]

theorem evictLoop_length {maxOpen : Nat} (hmo : 1 ≤ maxOpen) :
    ∀ (l : List (Nat × String)), (evictLoop maxOpen l).length < maxOpen := by
  intro l
  induction l with
  | nil => simpa [evictLoop]
  | cons e t ih =>
    unfold evictLoop
    by_cases h : maxOpen ≤ (e :: t).length
    · rw [if_pos h]; exact ih
    · rw [if_neg h]; omega

theorem evictLoop_eq_tail {maxOpen : Nat} {l : List (Nat × String)}
    (hmo : 1 ≤ maxOpen) (hlen : l.length = maxOpen) : evictLoop maxOpen l = l.tail := by
  cases l with
  | nil => simp at hlen; omega
  | cons e t =>
    unfold evictLoop
    rw [if_pos (by omega)]
    have : t.length < maxOpen := by simp at hlen; omega
    rw [evictLoop_of_lt this]
    rfl

theorem evictLoop_subset {maxOpen : Nat} : ∀ (l : List (Nat × String)),
    ∀ e ∈ evictLoop maxOpen l, e ∈ l := by
  intro l
  induction l with
  | nil => simp [evictLoop]
  | cons hd t ih =>
    unfold evictLoop
    by_cases h : maxOpen ≤ (hd :: t).length
    · rw [if_pos h]
      intro e he
      exact List.mem_cons_of_mem _ (ih e he)
    · rw [if_neg h]
      intro e he
      exact he

theorem get_writer_max_open (ofail : String → Bool) (c : WriterCache) (fs : FS) (y : Nat) :
    ((get_writer ofail c fs y).1.1).max_open = c.max_open := by
  unfold get_writer
  dsimp only
  rcases Bool.eq_false_or_eq_true (rollNeeded c y) with hr | hr <;>
    simp only [hr, Bool.false_eq_true, if_false, if_true, eq_self_iff_true] <;>
    (repeat' split) <;> rfl

theorem get_writer_cache_bound (ofail : String → Bool) (c : WriterCache) (fs : FS) (y : Nat)
    (hmo : 1 ≤ c.max_open) (hc : c.cache.length ≤ c.max_open) :
    ((get_writer ofail c fs y).1.1).cache.length ≤ c.max_open := by
  unfold get_writer
  dsimp only
  rcases Bool.eq_false_or_eq_true (rollNeeded c y) with hr | hr <;>
    simp only [hr, Bool.false_eq_true, if_false, if_true, eq_self_iff_true]
  · -- rollover: the open segment for `y` (if any) was popped first
    have hrem : (alRemove c.cache y).length ≤ c.cache.length := alRemove_length_le _ _
    split
    case _ p hp =>
      have := alRemove_length_lt hp
      simp only [List.length_append, List.length_cons, List.length_nil]
      omega
    case _ hp =>
      split
      · exact Nat.le_of_lt (evictLoop_length hmo _)
      · have := evictLoop_length hmo (alRemove c.cache y)
        simp only [List.length_append, List.length_cons, List.length_nil]
        omega
  · -- no rollover
    split
    case _ p hp =>
      have := alRemove_length_lt hp
      simp only [List.length_append, List.length_cons, List.length_nil]
      omega
    case _ hp =>
      split
      · exact Nat.le_of_lt (evictLoop_length hmo _)
      · have := evictLoop_length hmo c.cache
        simp only [List.length_append, List.length_cons, List.length_nil]
        omega

/-! ### Claim C2: the cache never exceeds `max_open`; eviction is LRU -/

/-- The cache's public operations, for quantifying over call sequences. -/
inductive CacheOp where
  | acquire (year : Nat)
  | record (year : Nat)
  | closeAll

/-- One cache call (file-system threaded through). -/
def runOp (ofail : String → Bool) (st : WriterCache × FS) : CacheOp → WriterCache × FS
  | CacheOp.acquire y => (get_writer ofail st.1 st.2 y).1
  | CacheOp.record y => (increment_row st.1 y, st.2)
  | CacheOp.closeAll => (close_all st.1, st.2)

/-- A sequence of cache calls. -/
def runOps (ofail : String → Bool) (st : WriterCache × FS) (ops : List CacheOp) :
    WriterCache × FS :=
  ops.foldl (runOp ofail) st

theorem runOp_preserves (ofail : String → Bool) (st : WriterCache × FS) (op : CacheOp)
    (hmo : 1 ≤ st.1.max_open) (hc : st.1.cache.length ≤ st.1.max_open) :
    (runOp ofail st op).1.max_open = st.1.max_open ∧
      (runOp ofail st op).1.cache.length ≤ st.1.max_open := by
  cases op with
  | acquire y => exact ⟨get_writer_max_open ofail st.1 st.2 y,
      get_writer_cache_bound ofail st.1 st.2 y hmo hc⟩
  | record y => exact ⟨rfl, hc⟩
  | closeAll => exact ⟨rfl, by simp [runOp, close_all]⟩

theorem runOps_bound (ofail : String → Bool) (ops : List CacheOp) :
    ∀ (st : WriterCache × FS), 1 ≤ st.1.max_open → st.1.cache.length ≤ st.1.max_open →
    (runOps ofail st ops).1.max_open = st.1.max_open ∧
      (runOps ofail st ops).1.cache.length ≤ st.1.max_open := by
  induction ops with
  | nil => exact fun st _ h2 => ⟨rfl, h2⟩
  | cons op rest ih =>
    intro st h1 h2
    have hop := runOp_preserves ofail st op h1 h2
    have hrest := ih (runOp ofail st op) (by rw [hop.1]; exact h1) (by rw [hop.1]; exact hop.2)
    refine ⟨?_, ?_⟩
    · show (runOps ofail (runOp ofail st op) rest).1.max_open = st.1.max_open
      rw [hrest.1, hop.1]
    · show (runOps ofail (runOp ofail st op) rest).1.cache.length ≤ st.1.max_open
      calc (runOps ofail (runOp ofail st op) rest).1.cache.length
          ≤ (runOp ofail st op).1.max_open := hrest.2
        _ = st.1.max_open := hop.1

theorem get_writer_evicts_lru (c : WriterCache) (fs : FS) (y : Nat)
    (hmo : 1 ≤ c.max_open) (hmiss : alGet c.cache y = none)
    (hfull : c.cache.length = c.max_open) :
    ∃ p, ((get_writer noFail c fs y).1.1).cache = c.cache.tail ++ [(y, p)] := by
  have hrm : alRemove c.cache y = c.cache := alRemove_of_none hmiss
  have htail := evictLoop_eq_tail hmo hfull
  unfold get_writer
  dsimp only
  rcases Bool.eq_false_or_eq_true (rollNeeded c y) with hr | hr <;>
    simp only [hr, Bool.false_eq_true, if_false, if_true, eq_self_iff_true, hrm, hmiss,
      noFail, htail]
  · exact ⟨_, rfl⟩
  · exact ⟨_, rfl⟩

/-- C2: over every sequence of `get_writer`, `increment_row` and `close_all`
calls on a cache built with `max_open ≥ 1`, the number of simultaneously
open cache entries never exceeds `max_open` — before or after any call —
and whenever `get_writer` must open a new entry while the cache already
holds `max_open` entries, the least-recently-used entry (the front of the
recency order) is the one closed and removed. -/
theorem cache_bounded_and_lru_eviction (od : String) (hdr : List String) (mo : Nat)
    (R : Option Nat) (fs0 : FS) (ops : List CacheOp) (hmo : 1 ≤ mo) :
    (∀ i : Nat,
      ((runOps noFail (WriterCache.mk od hdr mo R [] [], fs0) (ops.take i)).1).cache.length
        ≤ mo) ∧
    (∀ (c : WriterCache) (fs : FS) (y : Nat), 1 ≤ c.max_open →
      alGet c.cache y = none → c.cache.length = c.max_open →
      ∃ p, ((get_writer noFail c fs y).1.1).cache = c.cache.tail ++ [(y, p)]) := by
  constructor
  · intro i
    exact (runOps_bound noFail (ops.take i) (WriterCache.mk od hdr mo R [] [], fs0)
      hmo (by simp)).2
  · intro c fs y h1 h2 h3
    exact get_writer_evicts_lru c fs y h1 h2 h3

/-- C2 witness: `max_open = 1`, two distinct years forcing an eviction. -/
theorem cache_bounded_and_lru_eviction_witness :
    1 ≤ 1 ∧
    (∀ i : Nat,
      ((runOps noFail (WriterCache.mk "out" ["datetime"] 1 none [] [], [])
          ([CacheOp.acquire 2020, CacheOp.acquire 2021, CacheOp.record 2021,
            CacheOp.closeAll].take i)).1).cache.length ≤ 1) :=
  ⟨by decide,
    (cache_bounded_and_lru_eviction "out" ["datetime"] 1 none []
      [CacheOp.acquire 2020, CacheOp.acquire 2021, CacheOp.record 2021, CacheOp.closeAll]
      (by decide)).1⟩

/-! ### Claim C4: the output file name -/

/-- C4 counterexample: with rollover disabled (`max_rows_per_file = None`),
the file opened for year 2020 is still named with the `_part_00` component;
the `_part_<NN>`-less name the claim asserts is not used. -/
theorem filename_part_component_not_omitted :
    (get_writer noFail (WriterCache.mk "out" ["datetime"] 8 none [] []) [] 2020).2 =
      .ok (partPath "out" 2020 0) ∧
    partPath "out" 2020 0 = "out/weather_2020_part_00.csv" ∧
    partPath "out" 2020 0 ≠ "out/weather_2020.csv" := by
  refine ⟨rfl, by decide, by decide⟩

theorem rollNeeded_of_fresh {c : WriterCache} {y : Nat}
    (hys : alGet c.year_state y = none) : rollNeeded c y = false := by
  unfold rollNeeded
  cases hR : c.max_rows_per_file with
  | none => rfl
  | some r =>
    have h0 : ysGet c.year_state y = (0, 0) := by
      unfold ysGet
      rw [hys]
      rfl
    rw [h0]
    cases r with
    | zero => rfl
    | succ r =>
      simp

/-- C4 amended: the segment file for `(year, chunk)` is always named
`<out_dir>/weather_<year>_part_<NN>.csv` — the `_part_<NN>` component is
present even when rollover is disabled — where `<NN>` is the zero-padded
two-digit segment index; a fresh key's first acquisition opens segment
index 0 (`_part_00`), and the name never equals the `_part`-less form. -/
theorem output_filename_format (od : String) (y k : Nat) (c : WriterCache) (fs : FS)
    (hod : c.out_dir = od) (hys : alGet c.year_state y = none)
    (hmiss : alGet c.cache y = none) :
    (get_writer noFail c fs y).2 = .ok (partPath od y 0) ∧
    (partPath od y k).data =
      od.data ++ "/weather_".data ++ natChars y ++ "_part_".data ++ pad2 k ++ ".csv".data ∧
    (k < 100 → (pad2 k).length = 2) ∧
    pad2 0 = ['0', '0'] ∧
    (partPath od y k).data ≠ od.data ++ "/weather_".data ++ natChars y ++ ".csv".data := by
  have hroll := rollNeeded_of_fresh hys
  have h0 : ysGet c.year_state y = (0, 0) := by
    unfold ysGet
    rw [hys]
    rfl
  refine ⟨?_, rfl, ?_, rfl, ?_⟩
  · unfold get_writer
    dsimp only
    simp only [hroll, Bool.false_eq_true, if_false, hmiss, h0, noFail, hod]
  · intro hk
    unfold pad2
    by_cases h : k < 10
    · rw [if_pos h]
      simp only [List.length_cons]
      have : (natCharsF (k + 1) k).length = 1 := by
        cases k with
        | zero => rfl
        | succ k =>
          show (if k + 1 < 10 then [digitCh (k + 1)] else _).length = 1
          rw [if_pos h]
          rfl
      show (natChars k).length + 1 = 2
      rw [show natChars k = natCharsF (k + 1) k from rfl, this]
    · rw [if_neg h]
      rw [natChars_unfold, if_neg h]
      have hk10 : k / 10 < 10 := by omega
      rw [natChars_unfold, if_pos hk10]
      rfl
  · intro heq
    have hA : ∀ (A X Y : List Char), A ++ X = A ++ Y → X = Y := by
      intro A X Y h
      exact List.append_cancel_left h
    have h1 : (od.data ++ "/weather_".data ++ natChars y) ++
        ("_part_".data ++ (pad2 k ++ ".csv".data)) =
        (od.data ++ "/weather_".data ++ natChars y) ++ ".csv".data := by
      calc (od.data ++ "/weather_".data ++ natChars y) ++
            ("_part_".data ++ (pad2 k ++ ".csv".data))
          = od.data ++ "/weather_".data ++ natChars y ++ "_part_".data ++ pad2 k
              ++ ".csv".data := by simp [List.append_assoc]
        _ = (partPath od y k).data := rfl
        _ = od.data ++ "/weather_".data ++ natChars y ++ ".csv".data := heq
        _ = (od.data ++ "/weather_".data ++ natChars y) ++ ".csv".data := by
              simp [List.append_assoc]
    have h2 := List.append_cancel_left h1
    have h2' : ('_' :: ("part_".data ++ (pad2 k ++ ".csv".data)) : List Char)
        = '.' :: "csv".data := h2
    injection h2' with hhead htail
    exact absurd hhead (by decide)

theorem output_filename_format_witness :
    alGet (WriterCache.mk "out" ["datetime"] 8 none [] []).year_state 2020 = none ∧
    ((get_writer noFail (WriterCache.mk "out" ["datetime"] 8 none [] []) [] 2020).2 =
        .ok (partPath "out" 2020 0) ∧
      (partPath "out" 2020 5).data = "out".data ++ "/weather_".data ++ natChars 2020 ++
        "_part_".data ++ pad2 5 ++ ".csv".data ∧
      (5 < 100 → (pad2 5).length = 2) ∧
      pad2 0 = ['0', '0'] ∧
      (partPath "out" 2020 5).data ≠ "out".data ++ "/weather_".data ++ natChars 2020 ++
        ".csv".data) :=
  ⟨rfl, output_filename_format "out" 2020 5
    (WriterCache.mk "out" ["datetime"] 8 none [] []) [] rfl rfl rfl⟩

/-! ### Branch-by-branch specification of `get_writer`

Named subterms of `get_writer`'s rollover phase, and one equation per
control-flow branch (cache hit / open failure / fresh open). -/

/-- The cache after the rollover phase (the open segment is closed first). -/
def cacheAfterRoll (c : WriterCache) (y : Nat) : List (Nat × String) :=
  if rollNeeded c y then alRemove c.cache y else c.cache

/-- The in-segment row count after the rollover phase. -/
def rowsAfterRoll (c : WriterCache) (y : Nat) : Nat :=
  if rollNeeded c y then 0 else (ysGet c.year_state y).1

/-- The segment index after the rollover phase. -/
def chunkAfterRoll (c : WriterCache) (y : Nat) : Nat :=
  if rollNeeded c y then (ysGet c.year_state y).2 + 1 else (ysGet c.year_state y).2

theorem get_writer_hit (ofail : String → Bool) (c : WriterCache) (fs : FS) (y : Nat)
    (p : String) (h : alGet (cacheAfterRoll c y) y = some p) :
    get_writer ofail c fs y =
      (({ c with
          cache := alRemove (cacheAfterRoll c y) y ++ [(y, p)],
          year_state := alSet c.year_state y (rowsAfterRoll c y, chunkAfterRoll c y) },
        fs), .ok p) := by
  unfold get_writer cacheAfterRoll rowsAfterRoll chunkAfterRoll at *
  dsimp only
  rcases Bool.eq_false_or_eq_true (rollNeeded c y) with hr | hr <;>
    simp only [hr, Bool.false_eq_true, if_false, if_true, eq_self_iff_true] at h ⊢ <;>
    rw [h]

theorem get_writer_fail (ofail : String → Bool) (c : WriterCache) (fs : FS) (y : Nat)
    (hmiss : alGet (cacheAfterRoll c y) y = none)
    (hfail : ofail (partPath c.out_dir y (chunkAfterRoll c y)) = true) :
    get_writer ofail c fs y =
      (({ c with cache := evictLoop c.max_open (cacheAfterRoll c y) }, fs),
        .error ("I/O error: '" ++ partPath c.out_dir y (chunkAfterRoll c y) ++ "'")) := by
  unfold get_writer cacheAfterRoll chunkAfterRoll at *
  dsimp only
  rcases Bool.eq_false_or_eq_true (rollNeeded c y) with hr | hr <;>
    simp only [hr, Bool.false_eq_true, if_false, if_true, eq_self_iff_true] at hmiss hfail ⊢ <;>
    rw [hmiss] <;> simp only [hfail, if_true]

theorem get_writer_open (ofail : String → Bool) (c : WriterCache) (fs : FS) (y : Nat)
    (hmiss : alGet (cacheAfterRoll c y) y = none)
    (hok : ofail (partPath c.out_dir y (chunkAfterRoll c y)) = false) :
    get_writer ofail c fs y =
      (({ c with
          cache := evictLoop c.max_open (cacheAfterRoll c y)
            ++ [(y, partPath c.out_dir y (chunkAfterRoll c y))],
          year_state := alSet c.year_state y (rowsAfterRoll c y, chunkAfterRoll c y) },
        (if (alGet fs (partPath c.out_dir y (chunkAfterRoll c y))).getD [] = [] then
          fsAppend (if (alGet fs (partPath c.out_dir y (chunkAfterRoll c y))).isSome then fs
              else alSet fs (partPath c.out_dir y (chunkAfterRoll c y)) [])
            (partPath c.out_dir y (chunkAfterRoll c y)) (Entry.header c.header)
        else fs)),
        .ok (partPath c.out_dir y (chunkAfterRoll c y))) := by
  unfold get_writer cacheAfterRoll rowsAfterRoll chunkAfterRoll at *
  dsimp only
  rcases Bool.eq_false_or_eq_true (rollNeeded c y) with hr | hr <;>
    simp only [hr, Bool.false_eq_true, if_false, if_true, eq_self_iff_true] at hmiss hok ⊢ <;>
    rw [hmiss] <;>
    simp only [hok, Bool.false_eq_true, if_false] <;>
    cases hex : alGet fs (partPath c.out_dir y _) <;>
    simp [hex, alGet_alSet]

/-! ## The row router `split_csv_by_year` (src/split_data.py lines 102-175) -/

/-- The recognized configuration options (src/split_data.py lines 102-108);
the input path is replaced by the parsed header and row list below. -/
structure Config where
  out_dir : String
  datetime_col : String
  max_open : Nat
  max_rows_per_file : Option Nat
  bad_rows_csv : Option String

/-- The router's loop state: the `total` and `bad` counters, the writer
cache, and the file system. -/
structure LoopState where
  total : Nat
  bad : Nat
  cache : WriterCache
  fs : FS

/-- The final totals the run reports. -/
structure Summary where
  total : Nat
  bad : Nat
deriving DecidableEq

/-- The fatal errors: empty input (no header row) and missing partition
column, both raised before any row is processed. -/
inductive RunError where
  | noHeader
  | missingColumn
deriving DecidableEq

/-- `writer.writerow(row)`: append the data row to the writer's file.
(`DictWriter` serializes the row's values in header order; `DictReader`
rows are keyed exactly by the header, so the row is stored as is.) -/
def writerow (fs : FS) (p : String) (r : Row) : FS := fsAppend fs p (Entry.row r)

/-- Quarantine a failed row: `row2 = dict(row); row2["_error"] = str(e);
bad_writer.writerow(row2)` when a bad-rows sink is configured, else drop. -/
def badAppend (bp? : Option String) (fs : FS) (r : Row) (msg : String) : FS :=
  match bp? with
  | some bp => fsAppend fs bp (Entry.row (rowSet r "_error" msg))
  | none => fs

/-- The per-row body (src/split_data.py lines 151-162): parse the key,
acquire a writer, write the row, bump the counter; `except Exception`
catches both parse failures and I/O failures raised inside the block and
records the row as bad. -/
def processRow (ofail : String → Bool) (dcol : String) (bp? : Option String)
    (st : LoopState) (r : Row) : LoopState :=
  match parse_year (rowGet r dcol) with
  | .ok y =>
    match get_writer ofail st.cache st.fs y with
    | ((c1, fs1), .ok p) =>
        ⟨st.total + 1, st.bad, increment_row c1 y, writerow fs1 p r⟩
    | ((c1, fs1), .error msg) =>
        ⟨st.total + 1, st.bad + 1, c1, badAppend bp? fs1 r msg⟩
  | .error msg =>
        ⟨st.total + 1, st.bad + 1, st.cache, badAppend bp? st.fs r msg⟩

/-- `split_csv_by_year`: header checks, bad-file creation (truncating
`open(..., "w")` plus immediate `writeheader`), then the row loop; the
`finally` teardown (`close_all`, closing the bad file) does not change any
file's contents in this model.  Directory creation is not modelled.
Returns the final file system and either a fatal error or the totals. -/
def split_csv_by_year (ofail : String → Bool) (cfg : Config) (fs0 : FS)
    (header : List String) (rows : List Row) : FS × Except RunError Summary :=
  if header = [] then (fs0, .error RunError.noHeader)
  else if cfg.datetime_col ∈ header then
    let fs1 := match cfg.bad_rows_csv with
      | some bp => alSet fs0 bp [Entry.header (header ++ ["_error"])]
      | none => fs0
    let c0 := WriterCache.mk cfg.out_dir header cfg.max_open cfg.max_rows_per_file [] []
    let fin := rows.foldl (processRow ofail cfg.datetime_col cfg.bad_rows_csv)
      (LoopState.mk 0 0 c0 fs1)
    (fin.fs, .ok (Summary.mk fin.total fin.bad))
  else (fs0, .error RunError.missingColumn)

/-! ### Claim C9: a missing partition column aborts before any output -/

/-- C9: when the configured partition column is absent from the (non-empty)
header, the run fails fatally with the file system untouched: no partition
file was created or opened and no bad-rows file was created, for every
initial file system, configuration, and row list. -/
theorem missing_column_aborts_without_output (ofail : String → Bool) (cfg : Config)
    (fs0 : FS) (header : List String) (rows : List Row)
    (hne : header ≠ []) (hmiss : cfg.datetime_col ∉ header) :
    split_csv_by_year ofail cfg fs0 header rows = (fs0, .error RunError.missingColumn) := by
  unfold split_csv_by_year
  rw [if_neg hne, if_neg hmiss]

/-- C9 witness: a header without the default `datetime` column. -/
theorem missing_column_aborts_without_output_witness :
    (["time", "temp"] : List String) ≠ [] ∧ "datetime" ∉ (["time", "temp"] : List String) ∧
    split_csv_by_year noFail (Config.mk "out" "datetime" 8 none (some "bad.csv")) []
        ["time", "temp"] [[("time", "2020-01-01")]] =
      ([], .error RunError.missingColumn) :=
  ⟨by decide, by decide,
    missing_column_aborts_without_output noFail (Config.mk "out" "datetime" 8 none
      (some "bad.csv")) [] ["time", "temp"] [[("time", "2020-01-01")]]
      (by decide) (by decide)⟩

/-! ### Claim C3: I/O errors during row processing do not abort the run -/

theorem processRow_total (ofail : String → Bool) (dcol : String) (bp? : Option String)
    (st : LoopState) (r : Row) :
    (processRow ofail dcol bp? st r).total = st.total + 1 := by
  unfold processRow
  split
  · split
    · rfl
    · rfl
  · rfl

theorem foldl_processRow_total (ofail : String → Bool) (dcol : String) (bp? : Option String)
    (rows : List Row) : ∀ (st : LoopState),
    (rows.foldl (processRow ofail dcol bp?) st).total = st.total + rows.length := by
  induction rows with
  | nil => intro st; simp
  | cons r rest ih =>
    intro st
    show (rest.foldl (processRow ofail dcol bp?) (processRow ofail dcol bp? st r)).total = _
    rw [ih, processRow_total]
    simp only [List.length_cons]
    omega

deriving instance DecidableEq for Except

/-- C3 counterexample: a run in which the only row parses to a valid key
but opening its partition file raises an I/O error (`ofail ≡ true`).  The
claim says the error propagates and aborts the run; instead the run
completes normally, reporting the row as bad — the `except Exception`
handler at src/split_data.py line 156 absorbs I/O errors exactly like
key-parse failures. -/
theorem io_error_does_not_abort_counterexample :
    parse_year "2020-01-01" = .ok 2020 ∧
    (split_csv_by_year (fun _ => true)
        (Config.mk "out" "datetime" 8 none (some "bad.csv")) []
        ["datetime"] [[("datetime", "2020-01-01")]]).2 =
      .ok (Summary.mk 1 1) := by
  refine ⟨by decide, by decide⟩

/-- C3 amended: exceptions raised inside the per-row block — key-parse
failures and I/O errors from opening a partition file alike — are caught
by the row-level handler and counted as bad rows; the run never aborts
because of them: for every failure oracle it completes with a summary
covering all input rows. -/
theorem io_errors_absorbed_run_completes (ofail : String → Bool) (cfg : Config)
    (fs0 : FS) (header : List String) (rows : List Row)
    (hne : header ≠ []) (hmem : cfg.datetime_col ∈ header) :
    ∃ (fsOut : FS) (s : Summary),
      split_csv_by_year ofail cfg fs0 header rows = (fsOut, .ok s) ∧
      s.total = rows.length := by
  unfold split_csv_by_year
  rw [if_neg hne, if_pos hmem]
  refine ⟨_, _, rfl, ?_⟩
  rw [foldl_processRow_total]
  simp

/-- C3 amended witness: an all-opens-fail oracle over two rows. -/
theorem io_errors_absorbed_run_completes_witness :
    (["datetime"] : List String) ≠ [] ∧ "datetime" ∈ (["datetime"] : List String) ∧
    ∃ (fsOut : FS) (s : Summary),
      split_csv_by_year (fun _ => true)
          (Config.mk "out" "datetime" 8 none none) []
          ["datetime"] [[("datetime", "2020-01-01")], [("datetime", "2021-02-03")]] =
        (fsOut, .ok s) ∧
      s.total = 2 :=
  ⟨by decide, by decide, by
    obtain ⟨fsOut, s, h1, h2⟩ := io_errors_absorbed_run_completes (fun _ => true)
      (Config.mk "out" "datetime" 8 none none) [] ["datetime"]
      [[("datetime", "2020-01-01")], [("datetime", "2021-02-03")]] (by decide) (by decide)
    exact ⟨fsOut, s, h1, h2⟩⟩

/-! ### Claim C10: the bad-rows file is truncated and headed at run start -/

theorem cacheAfterRoll_subset (c : WriterCache) (y : Nat) :
    ∀ e ∈ cacheAfterRoll c y, e ∈ c.cache := by
  unfold cacheAfterRoll
  split
  · exact alRemove_subset _ _
  · exact fun e he => he

/-- Every cache entry is bound to a partition path of its own year. -/
def CachePathsOk (od : String) (cc : List (Nat × String)) : Prop :=
  ∀ e ∈ cc, ∃ k, e.2 = partPath od e.1 k

theorem get_writer_out_dir (ofail : String → Bool) (c : WriterCache) (fs : FS) (y : Nat) :
    ((get_writer ofail c fs y).1.1).out_dir = c.out_dir := by
  unfold get_writer
  dsimp only
  rcases Bool.eq_false_or_eq_true (rollNeeded c y) with hr | hr <;>
    simp only [hr, Bool.false_eq_true, if_false, if_true, eq_self_iff_true] <;>
    (repeat' split) <;> rfl

theorem get_writer_cache_paths (ofail : String → Bool) (c : WriterCache) (fs : FS)
    (y : Nat) (od : String) (hod : c.out_dir = od) (hcp : CachePathsOk od c.cache) :
    CachePathsOk od ((get_writer ofail c fs y).1.1).cache := by
  cases hhit : alGet (cacheAfterRoll c y) y with
  | some p =>
    rw [get_writer_hit ofail c fs y p hhit]
    intro e he
    rcases List.mem_append.1 he with h1 | h1
    · exact hcp e (cacheAfterRoll_subset c y e (alRemove_subset _ _ e h1))
    · simp at h1
      subst h1
      exact hcp (y, p) (cacheAfterRoll_subset c y _ (alGet_mem hhit))
  | none =>
    cases hf : ofail (partPath c.out_dir y (chunkAfterRoll c y)) with
    | false =>
      rw [get_writer_open ofail c fs y hhit hf]
      intro e he
      rcases List.mem_append.1 he with h1 | h1
      · exact hcp e (cacheAfterRoll_subset c y e (evictLoop_subset _ e h1))
      · simp at h1
        subst h1
        exact ⟨chunkAfterRoll c y, by rw [hod]⟩
    | true =>
      rw [get_writer_fail ofail c fs y hhit hf]
      intro e he
      exact hcp e (cacheAfterRoll_subset c y e (evictLoop_subset _ e he))

theorem get_writer_fs_other (ofail : String → Bool) (c : WriterCache) (fs : FS)
    (y : Nat) (q : String) (hq : q ≠ partPath c.out_dir y (chunkAfterRoll c y)) :
    alGet ((get_writer ofail c fs y).1.2) q = alGet fs q := by
  cases hhit : alGet (cacheAfterRoll c y) y with
  | some p => rw [get_writer_hit ofail c fs y p hhit]
  | none =>
    cases hf : ofail (partPath c.out_dir y (chunkAfterRoll c y)) with
    | false =>
      rw [get_writer_open ofail c fs y hhit hf]
      dsimp only
      split
      · rw [alGet_fsAppend, if_neg hq]
        split
        · rfl
        · rw [alGet_alSet, if_neg hq]
      · rfl
    | true => rw [get_writer_fail ofail c fs y hhit hf]

theorem get_writer_ok_path (ofail : String → Bool) (c : WriterCache) (fs : FS)
    (y : Nat) (p : String) (h : (get_writer ofail c fs y).2 = .ok p)
    (hcp : CachePathsOk c.out_dir c.cache) : ∃ k, p = partPath c.out_dir y k := by
  cases hhit : alGet (cacheAfterRoll c y) y with
  | some q =>
    rw [get_writer_hit ofail c fs y q hhit] at h
    have hqp : q = p := by
      injection h with h1
    obtain ⟨k, hk⟩ := hcp (y, q) (cacheAfterRoll_subset c y _ (alGet_mem hhit))
    exact ⟨k, by rw [← hqp]; exact hk⟩
  | none =>
    cases hf : ofail (partPath c.out_dir y (chunkAfterRoll c y)) with
    | false =>
      rw [get_writer_open ofail c fs y hhit hf] at h
      have : partPath c.out_dir y (chunkAfterRoll c y) = p := by
        injection h with h1
      exact ⟨chunkAfterRoll c y, this.symm⟩
    | true =>
      rw [get_writer_fail ofail c fs y hhit hf] at h
      exact absurd h (by simp)

theorem c10_loop (ofail : String → Bool) (dcol : String) (bp od : String)
    (hdrB : List String) (hsafe : ∀ (y k : Nat), bp ≠ partPath od y k)
    (rows : List Row) : ∀ (st : LoopState),
    st.cache.out_dir = od → CachePathsOk od st.cache.cache →
    (∃ ds : List Row,
      alGet st.fs bp = some (Entry.header hdrB :: ds.map Entry.row) ∧ ds.length = st.bad) →
    (rows.foldl (processRow ofail dcol (some bp)) st).cache.out_dir = od ∧
    CachePathsOk od (rows.foldl (processRow ofail dcol (some bp)) st).cache.cache ∧
    (∃ ds : List Row,
      alGet (rows.foldl (processRow ofail dcol (some bp)) st).fs bp =
        some (Entry.header hdrB :: ds.map Entry.row) ∧
      ds.length = (rows.foldl (processRow ofail dcol (some bp)) st).bad) := by
  induction rows with
  | nil => exact fun st h1 h2 h3 => ⟨h1, h2, h3⟩
  | cons r rest ih =>
    intro st h1 h2 h3
    apply ih
    · -- out_dir preserved by one step
      unfold processRow
      split
      case _ y hy =>
        split
        case _ gw c1 fs1 p heq =>
          have hgw := get_writer_out_dir ofail st.cache st.fs y
          rw [heq] at hgw
          exact hgw.trans h1
        case _ gw c1 fs1 msg heq =>
          have hgw := get_writer_out_dir ofail st.cache st.fs y
          rw [heq] at hgw
          exact hgw.trans h1
      case _ msg hy => exact h1
    · -- cache paths preserved by one step
      unfold processRow
      split
      case _ y hy =>
        split
        case _ gw c1 fs1 p heq =>
          have hgw := get_writer_cache_paths ofail st.cache st.fs y od h1 h2
          rw [heq] at hgw
          exact hgw
        case _ gw c1 fs1 msg heq =>
          have hgw := get_writer_cache_paths ofail st.cache st.fs y od h1 h2
          rw [heq] at hgw
          exact hgw
      case _ msg hy => exact h2
    · -- bad-file contents track the bad counter
      obtain ⟨ds, hds, hlen⟩ := h3
      unfold processRow
      split
      case _ y hy =>
        split
        case _ gw c1 fs1 p heq =>
          -- successful write: the data row goes to a partition path, not bp
          refine ⟨ds, ?_, hlen⟩
          have hfs1 : alGet fs1 bp = alGet st.fs bp := by
            have hgw := get_writer_fs_other ofail st.cache st.fs y bp
              (by rw [h1]; exact hsafe y (chunkAfterRoll st.cache y))
            rw [heq] at hgw
            exact hgw
          have hpok : (get_writer ofail st.cache st.fs y).2 = .ok p := by rw [heq]
          obtain ⟨k, hk⟩ := get_writer_ok_path ofail st.cache st.fs y p hpok
            (by rw [h1]; exact h2)
          have hbpp : bp ≠ p := by
            rw [hk, h1]
            exact hsafe y k
          show alGet (writerow fs1 p r) bp = _
          unfold writerow
          rw [alGet_fsAppend, if_neg hbpp, hfs1, hds]
        case _ gw c1 fs1 msg heq =>
          -- I/O failure: row quarantined to bp
          have hfs1 : alGet fs1 bp = alGet st.fs bp := by
            have hgw := get_writer_fs_other ofail st.cache st.fs y bp
              (by rw [h1]; exact hsafe y (chunkAfterRoll st.cache y))
            rw [heq] at hgw
            exact hgw
          refine ⟨ds ++ [rowSet r "_error" msg], ?_, ?_⟩
          · show alGet (badAppend (some bp) fs1 r msg) bp = _
            unfold badAppend
            rw [alGet_fsAppend, if_pos rfl, hfs1, hds]
            simp
          · simp [hlen]
      case _ msg hy =>
        -- parse failure: row quarantined to bp
        refine ⟨ds ++ [rowSet r "_error" msg], ?_, ?_⟩
        · show alGet (badAppend (some bp) st.fs r msg) bp = _
          unfold badAppend
          rw [alGet_fsAppend, if_pos rfl, hds]
          simp
        · simp [hlen]

/-- C10: with a bad-rows path configured, the file at that path is opened
in truncating write mode at the start of the run — destroying any
pre-existing content at that path rather than appending — and its header
(input header plus `_error`) is written immediately: after the run the file
holds exactly that header followed by one data row per bad row, so it
contains exactly the header line when the run had zero bad rows. -/
theorem bad_rows_file_truncated_with_header (ofail : String → Bool) (cfg : Config)
    (fs0 : FS) (header : List String) (rows : List Row) (bp : String)
    (hbp : cfg.bad_rows_csv = some bp) (hne : header ≠ [])
    (hmem : cfg.datetime_col ∈ header)
    (hsafe : ∀ (y k : Nat), bp ≠ partPath cfg.out_dir y k) :
    ∃ (ds : List Row) (fsOut : FS) (s : Summary),
      split_csv_by_year ofail cfg fs0 header rows = (fsOut, .ok s) ∧
      alGet fsOut bp = some (Entry.header (header ++ ["_error"]) :: ds.map Entry.row) ∧
      ds.length = s.bad ∧
      (s.bad = 0 → alGet fsOut bp = some [Entry.header (header ++ ["_error"])]) := by
  unfold split_csv_by_year
  rw [if_neg hne, if_pos hmem, hbp]
  have hinit : alGet (alSet fs0 bp [Entry.header (header ++ ["_error"])]) bp =
      some (Entry.header (header ++ ["_error"]) :: ([] : List Row).map Entry.row) := by
    rw [alGet_alSet, if_pos rfl]
    rfl
  obtain ⟨h1, h2, ds, hds, hlen⟩ := c10_loop ofail cfg.datetime_col bp cfg.out_dir
    (header ++ ["_error"]) hsafe rows
    (LoopState.mk 0 0
      (WriterCache.mk cfg.out_dir header cfg.max_open cfg.max_rows_per_file [] [])
      (alSet fs0 bp [Entry.header (header ++ ["_error"])]))
    rfl (by intro e he; simp at he) ⟨[], hinit, rfl⟩
  refine ⟨ds, _, _, rfl, hds, hlen, ?_⟩
  intro hz
  rw [hds]
  have : ds = [] := by
    have := hlen.trans hz
    exact List.eq_nil_of_length_eq_zero this
  rw [this]
  rfl

/-- Decidable list-prefix test, for exhibiting concrete bad-rows paths that
can never collide with a partition path. -/
def hasPfx : List Char → List Char → Bool
  | [], _ => true
  | _ :: _, [] => false
  | a :: as, b :: bs => a = b && hasPfx as bs

theorem hasPfx_append : ∀ (p t : List Char), hasPfx p (p ++ t) = true := by
  intro p
  induction p with
  | nil => intro t; rfl
  | cons a as ih =>
    intro t
    show (decide (a = a) && hasPfx as (as ++ t)) = true
    simp [ih]

theorem partPath_decomp (od : String) (y k : Nat) :
    (partPath od y k).data =
      (od.data ++ "/weather_".data) ++
        (natChars y ++ ('_' :: ("part_".data ++ (pad2 k ++ ".csv".data)))) := by
  show od.data ++ "/weather_".data ++ natChars y ++ "_part_".data ++ pad2 k ++ ".csv".data = _
  rw [show ("_part_".data : List Char) = '_' :: "part_".data from rfl]
  simp [List.append_assoc]

theorem safe_of_no_weather_pfx {od bp : String}
    (h : hasPfx (od.data ++ "/weather_".data) bp.data = false) :
    ∀ (y k : Nat), bp ≠ partPath od y k := by
  intro y k heq
  have hd : bp.data = (partPath od y k).data := by rw [heq]
  rw [partPath_decomp] at hd
  have hp := hasPfx_append (od.data ++ "/weather_".data)
    (natChars y ++ ('_' :: ("part_".data ++ (pad2 k ++ ".csv".data))))
  rw [← hd, h] at hp
  exact Bool.noConfusion hp

/-- C10 witness: a configured bad-rows file, one bad row, and pre-existing
content at the bad-rows path that the run truncates away. -/
theorem bad_rows_file_truncated_with_header_witness :
    (Config.mk "out" "datetime" 8 none (some "bad.csv")).bad_rows_csv = some "bad.csv" ∧
    (["datetime"] : List String) ≠ [] ∧ "datetime" ∈ (["datetime"] : List String) ∧
    ∃ (ds : List Row) (fsOut : FS) (s : Summary),
      split_csv_by_year noFail (Config.mk "out" "datetime" 8 none (some "bad.csv"))
          [("bad.csv", [Entry.row [("x", "stale")]])]
          ["datetime"] [[("datetime", "oops")]] = (fsOut, .ok s) ∧
      alGet fsOut "bad.csv" =
        some (Entry.header (["datetime"] ++ ["_error"]) :: ds.map Entry.row) ∧
      ds.length = s.bad ∧
      (s.bad = 0 → alGet fsOut "bad.csv" =
        some [Entry.header (["datetime"] ++ ["_error"])]) :=
  ⟨rfl, by decide, by decide,
    bad_rows_file_truncated_with_header noFail
      (Config.mk "out" "datetime" 8 none (some "bad.csv"))
      [("bad.csv", [Entry.row [("x", "stale")]])] ["datetime"] [[("datetime", "oops")]]
      "bad.csv" rfl (by decide) (by decide)
      (safe_of_no_weather_pfx (by decide))⟩

/-! ## Master invariant machinery for claims C1, C5 and C6 -/

/-- The partition key a row routes to, if any. -/
def rowKey (dcol : String) (r : Row) : Option Nat :=
  match parse_year (rowGet r dcol) with
  | .ok y => some y
  | .error _ => none

/-- The subsequence of rows routed to key `y`, in input order. -/
def keyRows (dcol : String) (y : Nat) (rows : List Row) : List Row :=
  rows.filter (fun r => decide (rowKey dcol r = some y))

/-- The subsequence of rows whose key extraction fails, in input order. -/
def badKeyRows (dcol : String) (rows : List Row) : List Row :=
  rows.filter (fun r => decide (rowKey dcol r = none))

/-- The rollover limit with Python truthiness applied: `None` and `0` both
disable rollover. -/
def effLimit : Option Nat → Option Nat
  | some 0 => none
  | some (r + 1) => some (r + 1)
  | none => none

theorem keyRows_append (dcol : String) (y : Nat) (P : List Row) (r : Row) :
    keyRows dcol y (P ++ [r]) =
      keyRows dcol y P ++ (if rowKey dcol r = some y then [r] else []) := by
  unfold keyRows
  rw [List.filter_append]
  by_cases h : rowKey dcol r = some y <;> simp [h]

theorem badKeyRows_append (dcol : String) (P : List Row) (r : Row) :
    badKeyRows dcol (P ++ [r]) =
      badKeyRows dcol P ++ (if rowKey dcol r = none then [r] else []) := by
  unfold badKeyRows
  rw [List.filter_append]
  by_cases h : rowKey dcol r = none <;> simp [h]

theorem allDigits_append_sep {sep : Char} (hsep : sep.isDigit = false) :
    ∀ (a b t u : List Char), (∀ c ∈ a, c.isDigit = true) → (∀ c ∈ b, c.isDigit = true) →
    a ++ sep :: t = b ++ sep :: u → a = b ∧ t = u := by
  intro a
  induction a with
  | nil =>
    intro b t u _ hb heq
    cases b with
    | nil =>
      simp only [List.nil_append] at heq
      refine ⟨rfl, ?_⟩
      injection heq with h1
    | cons c bs =>
      simp only [List.nil_append, List.cons_append] at heq
      have hc : sep = c := (List.cons.injEq _ _ _ _ ▸ heq).1
      have := hb c (List.mem_cons_self c bs)
      rw [← hc, hsep] at this
      exact Bool.noConfusion this
  | cons c as ih =>
    intro b t u ha hb heq
    cases b with
    | nil =>
      simp only [List.nil_append, List.cons_append] at heq
      have hc : c = sep := (List.cons.injEq _ _ _ _ ▸ heq).1
      have := ha c (List.mem_cons_self c as)
      rw [hc, hsep] at this
      exact Bool.noConfusion this
    | cons d bs =>
      simp only [List.cons_append] at heq
      have hcd : c = d := (List.cons.injEq _ _ _ _ ▸ heq).1
      have htl : as ++ sep :: t = bs ++ sep :: u := (List.cons.injEq _ _ _ _ ▸ heq).2
      obtain ⟨h1, h2⟩ := ih bs t u (fun x hx => ha x (List.mem_cons_of_mem _ hx))
        (fun x hx => hb x (List.mem_cons_of_mem _ hx)) htl
      exact ⟨by rw [hcd, h1], h2⟩

theorem partPath_inj (od : String) {y k y2 k2 : Nat}
    (h : partPath od y k = partPath od y2 k2) : y = y2 ∧ k = k2 := by
  have hd := congrArg String.data h
  rw [partPath_decomp, partPath_decomp] at hd
  have h1 := List.append_cancel_left hd
  obtain ⟨hy, ht⟩ := @allDigits_append_sep '_' (by decide) _ _ _ _
    (natChars_all_digits y) (natChars_all_digits y2) h1
  have hyy := natChars_injective hy
  have h2 := List.append_cancel_left ht
  have h2' : pad2 k ++ '.' :: "csv".data = pad2 k2 ++ '.' :: "csv".data := h2
  obtain ⟨hk, _⟩ := @allDigits_append_sep '.' (by decide) _ _ _ _
    (pad2_all_digits k) (pad2_all_digits k2) h2'
  exact ⟨hyy, pad2_injective hk⟩

theorem partPath_ne (od : String) {y k y2 k2 : Nat} (h : ¬(y = y2 ∧ k = k2)) :
    partPath od y k ≠ partPath od y2 k2 :=
  fun heq => h (partPath_inj od heq)

theorem rollNeeded_eq (c : WriterCache) (y : Nat) :
    rollNeeded c y =
      (match effLimit c.max_rows_per_file with
       | some r => decide (r ≤ (ysGet c.year_state y).1)
       | none => false) := by
  unfold rollNeeded effLimit
  cases c.max_rows_per_file with
  | none => rfl
  | some r =>
    cases r with
    | zero => rfl
    | succ r => rfl

theorem ysGet_alSet (ys : List (Nat × (Nat × Nat))) (y z : Nat) (v : Nat × Nat) :
    ysGet (alSet ys y v) z = if z = y then v else ysGet ys z := by
  unfold ysGet
  rw [alGet_alSet]
  by_cases h : z = y <;> simp [h]

/-- A configured bad-rows path never collides with a partition path. -/
def BadSafe (od : String) : Option String → Prop
  | some bp => ∀ (y k : Nat), bp ≠ partPath od y k
  | none => True

theorem alGet_badAppend_other (bp? : Option String) (fs : FS) (r : Row) (msg : String)
    (q : String) (hq : ∀ bp, bp? = some bp → q ≠ bp) :
    alGet (badAppend bp? fs r msg) q = alGet fs q := by
  cases bp? with
  | none => rfl
  | some bp =>
    unfold badAppend
    rw [alGet_fsAppend, if_neg (hq bp rfl)]

/-- Per-key invariant tying a key's `_year_state` entry and its family of
segment files to the rows routed to it so far.  With rollover limit `r`:
the processed count splits as `q*r + s` with `s` the current segment's
fill; full segments hold exactly the corresponding `r`-row slices; the
current segment holds the remainder; later indices do not exist. -/
def YInv (od : String) (hdr : List String) (eff : Option Nat) (y : Nat)
    (l : List Row) (ys : List (Nat × (Nat × Nat))) (fs : FS) : Prop :=
  match eff with
  | some r =>
      l.length = (ysGet ys y).2 * r + (ysGet ys y).1 ∧
      (ysGet ys y).1 ≤ r ∧
      (l = [] → ysGet ys y = (0, 0)) ∧
      (l ≠ [] → (ysGet ys y).1 ≠ 0) ∧
      (∀ j, j < (ysGet ys y).2 → alGet fs (partPath od y j) =
        some (Entry.header hdr :: ((l.drop (j * r)).take r).map Entry.row)) ∧
      (alGet fs (partPath od y (ysGet ys y).2) =
        if l = [] then none
        else some (Entry.header hdr :: (l.drop ((ysGet ys y).2 * r)).map Entry.row)) ∧
      (∀ j, (ysGet ys y).2 < j → alGet fs (partPath od y j) = none)
  | none =>
      ysGet ys y = (l.length, 0) ∧
      (alGet fs (partPath od y 0) =
        if l = [] then none else some (Entry.header hdr :: l.map Entry.row)) ∧
      (∀ j, 0 < j → alGet fs (partPath od y j) = none)

theorem YInv_fs_congr {od : String} {hdr : List String} {eff : Option Nat} {y : Nat}
    {l : List Row} {ys : List (Nat × (Nat × Nat))} {fs fs2 : FS}
    (h : ∀ j, alGet fs2 (partPath od y j) = alGet fs (partPath od y j)) :
    YInv od hdr eff y l ys fs → YInv od hdr eff y l ys fs2 := by
  unfold YInv
  cases eff with
  | some r =>
    rintro ⟨h1, h2, h3, h4, h5, h6, h7⟩
    exact ⟨h1, h2, h3, h4, fun j hj => by rw [h j]; exact h5 j hj,
      by rw [h _]; exact h6, fun j hj => by rw [h j]; exact h7 j hj⟩
  | none =>
    rintro ⟨h1, h2, h3⟩
    exact ⟨h1, by rw [h 0]; exact h2, fun j hj => by rw [h j]; exact h3 j hj⟩

/-- The router's full loop invariant after processing the prefix `P`. -/
def MasterInv (dcol od : String) (hdr : List String) (mo : Nat) (R : Option Nat)
    (P : List Row) (st : LoopState) : Prop :=
  st.total = P.length ∧
  st.bad = (badKeyRows dcol P).length ∧
  st.cache.out_dir = od ∧
  st.cache.header = hdr ∧
  st.cache.max_open = mo ∧
  st.cache.max_rows_per_file = R ∧
  st.cache.cache.length ≤ mo ∧
  (∀ e ∈ st.cache.cache,
    keyRows dcol e.1 P ≠ [] ∧ e.2 = partPath od e.1 (ysGet st.cache.year_state e.1).2) ∧
  (∀ y, YInv od hdr (effLimit R) y (keyRows dcol y P) st.cache.year_state st.fs)

/-- The loop state entering the row loop: zero counters, an empty cache, and
the bad-rows file (if configured) freshly truncated and headed. -/
def initState (cfg : Config) (fs0 : FS) (header : List String) : LoopState :=
  LoopState.mk 0 0
    (WriterCache.mk cfg.out_dir header cfg.max_open cfg.max_rows_per_file [] [])
    (match cfg.bad_rows_csv with
     | some bp => alSet fs0 bp [Entry.header (header ++ ["_error"])]
     | none => fs0)

theorem split_eq_run (ofail : String → Bool) (cfg : Config) (fs0 : FS)
    (header : List String) (rows : List Row)
    (hne : header ≠ []) (hmem : cfg.datetime_col ∈ header) :
    split_csv_by_year ofail cfg fs0 header rows =
      ((rows.foldl (processRow ofail cfg.datetime_col cfg.bad_rows_csv)
          (initState cfg fs0 header)).fs,
        .ok (Summary.mk
          (rows.foldl (processRow ofail cfg.datetime_col cfg.bad_rows_csv)
            (initState cfg fs0 header)).total
          (rows.foldl (processRow ofail cfg.datetime_col cfg.bad_rows_csv)
            (initState cfg fs0 header)).bad)) := by
  unfold split_csv_by_year initState
  rw [if_neg hne, if_pos hmem]

theorem rowKey_some_iff (dcol : String) (r : Row) (y : Nat) :
    rowKey dcol r = some y ↔ parse_year (rowGet r dcol) = .ok y := by
  unfold rowKey
  cases h : parse_year (rowGet r dcol) <;> simp

theorem rowKey_none_iff (dcol : String) (r : Row) :
    rowKey dcol r = none ↔ ∃ msg, parse_year (rowGet r dcol) = .error msg := by
  unfold rowKey
  cases h : parse_year (rowGet r dcol) <;> simp

theorem take_drop_append_frozen {α : Type} {l : List α} {x : α} {i n : Nat}
    (h : i + n ≤ l.length) : ((l ++ [x]).drop i).take n = (l.drop i).take n := by
  rw [List.drop_append_of_le_length (by omega), List.take_append_eq_append_take]
  have h2 : n - (l.drop i).length = 0 := by
    rw [List.length_drop]
    omega
  rw [h2, List.take_zero, List.append_nil]

theorem init_masterInv (dcol od : String) (hdr : List String) (mo : Nat) (R : Option Nat)
    (c0 : WriterCache) (fsInit : FS)
    (hc0 : c0 = WriterCache.mk od hdr mo R [] [])
    (hfs : ∀ (y j : Nat), alGet fsInit (partPath od y j) = none) :
    MasterInv dcol od hdr mo R [] (LoopState.mk 0 0 c0 fsInit) := by
  subst hc0
  refine ⟨rfl, rfl, rfl, rfl, rfl, rfl, by simp, by intro e he; simp at he, ?_⟩
  intro y
  unfold YInv
  cases effLimit R with
  | some r =>
    refine ⟨by simp [keyRows, ysGet, alGet], by simp [ysGet, alGet],
      fun _ => rfl, fun h => absurd rfl h, ?_, ?_, ?_⟩
    · intro j hj
      simp [ysGet, alGet] at hj
    · rw [hfs]
      rfl
    · intro j hj
      exact hfs y j
  | none =>
    refine ⟨rfl, ?_, ?_⟩
    · rw [hfs]
      rfl
    · intro j hj
      exact hfs y j

theorem effLimit_pos {R : Option Nat} {r : Nat} (h : effLimit R = some r) : 1 ≤ r := by
  unfold effLimit at h
  cases R with
  | none => exact absurd h (by simp)
  | some n =>
    cases n with
    | zero => exact absurd h (by simp)
    | succ n =>
      have : n + 1 = r := by injection h
      omega

theorem alRemove_mem {α β : Type} [DecidableEq α] {l : List (α × β)} {k : α}
    {e : α × β} (h : e ∈ alRemove l k) : e ∈ l ∧ e.1 ≠ k := by
  unfold alRemove at h
  have := List.mem_filter.1 h
  simpa using this

theorem YInv_ys_congr {od : String} {hdr : List String} {eff : Option Nat} {y : Nat}
    {l : List Row} {ys ys2 : List (Nat × (Nat × Nat))} {fs : FS}
    (h : ysGet ys2 y = ysGet ys y) :
    YInv od hdr eff y l ys fs → YInv od hdr eff y l ys2 fs := by
  unfold YInv
  cases eff with
  | some r =>
    rintro ⟨h1, h2, h3, h4, h5, h6, h7⟩
    rw [h]
    exact ⟨h1, h2, h3, h4, h5, h6, h7⟩
  | none =>
    rintro ⟨h1, h2, h3⟩
    rw [h]
    exact ⟨h1, h2, h3⟩

theorem keyRows_append_other {dcol : String} {y : Nat} {P : List Row} {r : Row}
    (h : rowKey dcol r ≠ some y) : keyRows dcol y (P ++ [r]) = keyRows dcol y P := by
  rw [keyRows_append, if_neg h, List.append_nil]

theorem ysGet_inc_set (ys : List (Nat × (Nat × Nat))) (y : Nat) (v : Nat × Nat) (z : Nat) :
    ysGet (alSet (alSet ys y v) y
        ((ysGet (alSet ys y v) y).1 + 1, (ysGet (alSet ys y v) y).2)) z =
      if z = y then (v.1 + 1, v.2) else ysGet ys z := by
  have hA : ysGet (alSet ys y v) y = v := by rw [ysGet_alSet, if_pos rfl]
  rw [hA, ysGet_alSet]
  by_cases h : z = y
  · simp [h]
  · simp [h, ysGet_alSet]

/-- Writing the first data row to a freshly created, freshly headed file. -/
theorem alGet_fresh_write (fs : FS) (p : String) (hdr : List String) (r : Row) (x : String) :
    alGet (writerow (fsAppend (alSet fs p ([] : List Entry)) p (Entry.header hdr)) p r) x =
      if x = p then some [Entry.header hdr, Entry.row r] else alGet fs x := by
  unfold writerow
  simp only [alGet_fsAppend, alGet_alSet]
  by_cases hx : x = p <;> simp [hx]

/-- Appending a data row to a file as it stands. -/
theorem alGet_pure_write (fs : FS) (p : String) (r : Row) (x : String) :
    alGet (writerow fs p r) x =
      if x = p then some ((alGet fs p).getD [] ++ [Entry.row r]) else alGet fs x := by
  unfold writerow
  rw [alGet_fsAppend]

theorem alGet_none_key {α β : Type} [DecidableEq α] {l : List (α × β)} {k : α}
    (h : alGet l k = none) : ∀ e ∈ l, e.1 ≠ k := by
  induction l with
  | nil =>
    intro e he
    simp at he
  | cons hd t ih =>
    obtain ⟨a, b⟩ := hd
    intro e he
    by_cases hak : a = k
    · rw [alGet, if_pos hak] at h
      exact absurd h (by simp)
    · rw [alGet, if_neg hak] at h
      rcases List.mem_cons.1 he with he1 | he1
      · subst he1
        exact hak
      · exact ih h e he1

/-- One router step preserves the master invariant. -/
theorem masterStep (dcol od : String) (hdr : List String) (mo : Nat) (R : Option Nat)
    (bp? : Option String) (hbp : BadSafe od bp?) (hmo : 1 ≤ mo)
    (P : List Row) (st : LoopState) (r : Row)
    (hInv : MasterInv dcol od hdr mo R P st) :
    MasterInv dcol od hdr mo R (P ++ [r]) (processRow noFail dcol bp? st r) := by
  obtain ⟨htot, hbad, hod, hhdr, hmo2, hR, hlen, hent, hY⟩ := hInv
  cases hk : rowKey dcol r with
  | none =>
    obtain ⟨msg, hmsg⟩ := (rowKey_none_iff dcol r).1 hk
    have hstep : processRow noFail dcol bp? st r =
        LoopState.mk (st.total + 1) (st.bad + 1) st.cache (badAppend bp? st.fs r msg) := by
      unfold processRow
      rw [hmsg]
    rw [hstep]
    refine ⟨by simp [htot], ?_, hod, hhdr, hmo2, hR, hlen, ?_, ?_⟩
    · rw [badKeyRows_append, if_pos hk]
      simp [hbad]
    · intro e he
      obtain ⟨h1, h2⟩ := hent e he
      refine ⟨?_, h2⟩
      rw [keyRows_append_other (by rw [hk]; exact fun hh => Option.noConfusion hh)]
      exact h1
    · intro y
      rw [keyRows_append_other (by rw [hk]; exact fun hh => Option.noConfusion hh)]
      refine YInv_fs_congr ?_ (hY y)
      intro j
      apply alGet_badAppend_other
      intro bp hbpEq heq2
      rw [hbpEq] at hbp
      exact (hbp y j) heq2.symm
  | some y0 =>
    have hparse := (rowKey_some_iff dcol r y0).1 hk
    have hrn : rollNeeded st.cache y0 =
        (match effLimit R with
         | some rv => decide (rv ≤ (ysGet st.cache.year_state y0).1)
         | none => false) := by
      rw [rollNeeded_eq, hR]
    cases hEff : effLimit R with
    | some rr =>
      have hrr1 : 1 ≤ rr := effLimit_pos hEff
      have hYy0 := hY y0
      rw [hEff] at hYy0
      obtain ⟨hm, hsle, hzero, hpos, hfull, hcur, hnone⟩ := hYy0
      rw [hEff] at hrn
      by_cases hroll : rr ≤ (ysGet st.cache.year_state y0).1
      · -- rollover: close the full segment, open the next one
        have hrollb : rollNeeded st.cache y0 = true := by
          rw [hrn]
          exact decide_eq_true hroll
        have hs : (ysGet st.cache.year_state y0).1 = rr := Nat.le_antisymm hsle hroll
        have hlne : keyRows dcol y0 P ≠ [] := by
          intro h
          have h0 := hzero h
          rw [h0] at hs
          simp at hs
          omega
        have hcar : cacheAfterRoll st.cache y0 = alRemove st.cache.cache y0 := by
          unfold cacheAfterRoll
          simp [hrollb]
        have hmiss : alGet (cacheAfterRoll st.cache y0) y0 = none := by
          rw [hcar, alGet_alRemove]
          simp
        have hchunk : chunkAfterRoll st.cache y0 = (ysGet st.cache.year_state y0).2 + 1 := by
          unfold chunkAfterRoll
          simp [hrollb]
        have hrows0 : rowsAfterRoll st.cache y0 = 0 := by
          unfold rowsAfterRoll
          simp [hrollb]
        have hgw := get_writer_open noFail st.cache st.fs y0 hmiss rfl
        rw [hchunk, hrows0, hcar, hod, hhdr, hmo2] at hgw
        have hnew : alGet st.fs (partPath od y0 ((ysGet st.cache.year_state y0).2 + 1)) = none :=
          hnone _ (Nat.lt_succ_self _)
        rw [hnew] at hgw
        simp only [Option.getD_none, Option.isSome_none, Bool.false_eq_true, if_false,
          eq_self_iff_true, if_true] at hgw
        unfold processRow
        rw [hparse]
        dsimp only
        rw [hgw]
        dsimp only
        simp only [increment_row]
        refine ⟨by simp [htot], ?_, rfl, rfl, rfl, hR, ?_, ?_, ?_⟩
        · rw [badKeyRows_append, if_neg (by rw [hk]; simp)]
          simp [hbad]
        · show (evictLoop mo (alRemove st.cache.cache y0) ++
              [(y0, partPath od y0 ((ysGet st.cache.year_state y0).2 + 1))]).length ≤ mo
          rw [List.length_append]
          have := evictLoop_length hmo (alRemove st.cache.cache y0)
          simp only [List.length_cons, List.length_nil]
          omega
        · intro e he
          have he' : e ∈ evictLoop mo (alRemove st.cache.cache y0) ++
              [(y0, partPath od y0 ((ysGet st.cache.year_state y0).2 + 1))] := he
          rcases List.mem_append.1 he' with h1 | h1
          · obtain ⟨hin, hne⟩ := alRemove_mem (evictLoop_subset _ e h1)
            obtain ⟨hk1, hk2⟩ := hent e hin
            have hcond : rowKey dcol r ≠ some e.1 := by
              rw [hk]
              intro hh
              injection hh with hh
              exact hne hh.symm
            refine ⟨by rw [keyRows_append_other hcond]; exact hk1, ?_⟩
            rw [ysGet_inc_set, if_neg hne]
            exact hk2
          · simp only [List.mem_singleton] at h1
            subst h1
            refine ⟨?_, ?_⟩
            · rw [keyRows_append, if_pos hk]
              simp
            · rw [ysGet_inc_set, if_pos rfl]
        · intro y
          by_cases hy : y = y0
          · subst hy
            rw [keyRows_append, if_pos hk, hEff]
            simp only [YInv, ysGet_inc_set, eq_self_iff_true, if_true, alGet_fresh_write]
            have hmul : ((ysGet st.cache.year_state y).2 + 1) * rr =
                (keyRows dcol y P).length := by
              rw [Nat.succ_mul, hm, hs]
            refine ⟨?_, by omega, ?_, ?_, ?_, ?_, ?_⟩
            · rw [List.length_append, hm, hs]
              simp only [List.length_cons, List.length_nil]
              omega
            · intro h
              simp at h
            · intro h
              omega
            · intro j hj
              rw [if_neg (partPath_ne od (by
                intro hc
                omega))]
              rcases Nat.lt_succ_iff_lt_or_eq.1 hj with hj2 | hj2
              · rw [hfull j hj2]
                have hbound : j * rr + rr ≤ (keyRows dcol y P).length := by
                  have hmul2 : (j + 1) * rr ≤ (ysGet st.cache.year_state y).2 * rr :=
                    Nat.mul_le_mul_right rr (by omega)
                  rw [Nat.succ_mul] at hmul2
                  omega
                rw [take_drop_append_frozen hbound]
              · subst hj2
                rw [hcur, if_neg hlne]
                have hbound : (ysGet st.cache.year_state y).2 * rr ≤
                    (keyRows dcol y P).length := by omega
                rw [List.drop_append_of_le_length hbound]
                have hlen2 : ((keyRows dcol y P).drop
                    ((ysGet st.cache.year_state y).2 * rr)).length = rr := by
                  rw [List.length_drop]
                  omega
                rw [List.take_left' hlen2]
            · rw [if_neg (by simp)]
              rw [hmul, List.drop_left]
              rfl
            · intro j hj
              rw [if_neg (partPath_ne od (by
                intro hc
                omega))]
              exact hnone j (by omega)
          · rw [keyRows_append_other (by
              rw [hk]
              intro hh
              injection hh with hh
              exact hy hh.symm)]
            exact YInv_ys_congr (by rw [ysGet_inc_set, if_neg hy])
              (YInv_fs_congr (fun j => by
                rw [alGet_fresh_write, if_neg (partPath_ne od (fun hc => hy hc.1))])
                (hY y))
      · have hrollb : rollNeeded st.cache y0 = false := by
          rw [hrn]
          exact decide_eq_false hroll
        cases hhit : alGet st.cache.cache y0 with
        | some p =>
          -- cache hit on the current segment
          obtain ⟨hlne, hp⟩ := hent (y0, p) (alGet_mem hhit)
          dsimp only at hlne hp
          subst hp
          have hs0 : (ysGet st.cache.year_state y0).1 < rr := Nat.lt_of_not_le hroll
          have hcar : cacheAfterRoll st.cache y0 = st.cache.cache := by
            unfold cacheAfterRoll
            simp [hrollb]
          have hhit' : alGet (cacheAfterRoll st.cache y0) y0 =
              some (partPath od y0 (ysGet st.cache.year_state y0).2) := by
            rw [hcar]
            exact hhit
          have hgw := get_writer_hit noFail st.cache st.fs y0 _ hhit'
          have hrows : rowsAfterRoll st.cache y0 = (ysGet st.cache.year_state y0).1 := by
            unfold rowsAfterRoll
            simp [hrollb]
          have hchunk : chunkAfterRoll st.cache y0 = (ysGet st.cache.year_state y0).2 := by
            unfold chunkAfterRoll
            simp [hrollb]
          rw [hrows, hchunk, hcar] at hgw
          unfold processRow
          rw [hparse]
          dsimp only
          rw [hgw]
          dsimp only
          simp only [increment_row]
          refine ⟨by simp [htot], ?_, hod, hhdr, hmo2, hR, ?_, ?_, ?_⟩
          · rw [badKeyRows_append, if_neg (by rw [hk]; simp)]
            simp [hbad]
          · show (alRemove st.cache.cache y0 ++
                [(y0, partPath od y0 (ysGet st.cache.year_state y0).2)]).length ≤ mo
            rw [List.length_append]
            have := alRemove_length_lt hhit
            simp only [List.length_cons, List.length_nil]
            omega
          · intro e he
            have he' : e ∈ alRemove st.cache.cache y0 ++
                [(y0, partPath od y0 (ysGet st.cache.year_state y0).2)] := he
            rcases List.mem_append.1 he' with h1 | h1
            · obtain ⟨hin, hne⟩ := alRemove_mem h1
              obtain ⟨hk1, hk2⟩ := hent e hin
              have hcond : rowKey dcol r ≠ some e.1 := by
                rw [hk]
                intro hh
                injection hh with hh
                exact hne hh.symm
              refine ⟨by rw [keyRows_append_other hcond]; exact hk1, ?_⟩
              rw [ysGet_inc_set, if_neg hne]
              exact hk2
            · simp only [List.mem_singleton] at h1
              subst h1
              refine ⟨?_, ?_⟩
              · rw [keyRows_append, if_pos hk]
                simp
              · rw [ysGet_inc_set, if_pos rfl]
          · intro y
            by_cases hy : y = y0
            · subst hy
              rw [keyRows_append, if_pos hk, hEff]
              simp only [YInv, ysGet_inc_set, eq_self_iff_true, if_true, alGet_pure_write]
              refine ⟨?_, by omega, ?_, ?_, ?_, ?_, ?_⟩
              · rw [List.length_append, hm]
                simp only [List.length_cons, List.length_nil]
                omega
              · intro h
                simp at h
              · intro h
                omega
              · intro j hj
                rw [if_neg (partPath_ne od (by
                  intro hc
                  omega))]
                have hbound : j * rr + rr ≤ (keyRows dcol y P).length := by
                  have hmul2 : (j + 1) * rr ≤ (ysGet st.cache.year_state y).2 * rr :=
                    Nat.mul_le_mul_right rr (by omega)
                  rw [Nat.succ_mul] at hmul2
                  omega
                rw [take_drop_append_frozen hbound]
                exact hfull j hj
              · rw [hcur, if_neg hlne, if_neg (by simp)]
                have hbound : (ysGet st.cache.year_state y).2 * rr ≤
                    (keyRows dcol y P).length := by omega
                rw [List.drop_append_of_le_length hbound]
                simp
              · intro j hj
                rw [if_neg (partPath_ne od (by
                  intro hc
                  omega))]
                exact hnone j (by omega)
            · rw [keyRows_append_other (by
                rw [hk]
                intro hh
                injection hh with hh
                exact hy hh.symm)]
              exact YInv_ys_congr (by rw [ysGet_inc_set, if_neg hy])
                (YInv_fs_congr (fun j => by
                  rw [alGet_pure_write, if_neg (partPath_ne od (fun hc => hy hc.1))])
                  (hY y))
        | none =>
          -- reopen or first open of the current segment
          have hcar : cacheAfterRoll st.cache y0 = st.cache.cache := by
            unfold cacheAfterRoll
            simp [hrollb]
          have hmiss : alGet (cacheAfterRoll st.cache y0) y0 = none := by
            rw [hcar]
            exact hhit
          have hchunk : chunkAfterRoll st.cache y0 = (ysGet st.cache.year_state y0).2 := by
            unfold chunkAfterRoll
            simp [hrollb]
          have hrows : rowsAfterRoll st.cache y0 = (ysGet st.cache.year_state y0).1 := by
            unfold rowsAfterRoll
            simp [hrollb]
          have hgw := get_writer_open noFail st.cache st.fs y0 hmiss rfl
          rw [hchunk, hrows, hcar, hod, hhdr, hmo2] at hgw
          by_cases hl : keyRows dcol y0 P = []
          · -- the key has never produced a row: the segment file is created fresh
            have h00 := hzero hl
            have hnewfile : alGet st.fs
                (partPath od y0 (ysGet st.cache.year_state y0).2) = none := by
              rw [hcur, if_pos hl]
            rw [hnewfile] at hgw
            simp only [Option.getD_none, Option.isSome_none, Bool.false_eq_true, if_false,
              eq_self_iff_true, if_true] at hgw
            unfold processRow
            rw [hparse]
            dsimp only
            rw [hgw]
            dsimp only
            simp only [increment_row]
            refine ⟨by simp [htot], ?_, rfl, rfl, rfl, hR, ?_, ?_, ?_⟩
            · rw [badKeyRows_append, if_neg (by rw [hk]; simp)]
              simp [hbad]
            · show (evictLoop mo st.cache.cache ++
                  [(y0, partPath od y0 (ysGet st.cache.year_state y0).2)]).length ≤ mo
              rw [List.length_append]
              have := evictLoop_length hmo st.cache.cache
              simp only [List.length_cons, List.length_nil]
              omega
            · intro e he
              have he' : e ∈ evictLoop mo st.cache.cache ++
                  [(y0, partPath od y0 (ysGet st.cache.year_state y0).2)] := he
              rcases List.mem_append.1 he' with h1 | h1
              · have hin := evictLoop_subset _ e h1
                have hne := alGet_none_key hhit e hin
                obtain ⟨hk1, hk2⟩ := hent e hin
                have hcond : rowKey dcol r ≠ some e.1 := by
                  rw [hk]
                  intro hh
                  injection hh with hh
                  exact hne hh.symm
                refine ⟨by rw [keyRows_append_other hcond]; exact hk1, ?_⟩
                rw [ysGet_inc_set, if_neg hne]
                exact hk2
              · simp only [List.mem_singleton] at h1
                subst h1
                refine ⟨?_, ?_⟩
                · rw [keyRows_append, if_pos hk]
                  simp
                · rw [ysGet_inc_set, if_pos rfl]
            · intro y
              by_cases hy : y = y0
              · subst hy
                rw [keyRows_append, if_pos hk, hEff]
                simp only [YInv, ysGet_inc_set, eq_self_iff_true, if_true, alGet_fresh_write]
                rw [hl, h00]
                dsimp only
                simp only [List.nil_append]
                refine ⟨by simp, by omega, ?_, ?_, ?_, ?_, ?_⟩
                · intro h
                  simp at h
                · intro h
                  omega
                · intro j hj
                  exact absurd hj (Nat.not_lt_zero j)
                · simp
                · intro j hj
                  rw [if_neg (partPath_ne od (by
                    intro hc
                    omega))]
                  exact hnone j (by
                    rw [h00]
                    exact hj)
              · rw [keyRows_append_other (by
                  rw [hk]
                  intro hh
                  injection hh with hh
                  exact hy hh.symm)]
                exact YInv_ys_congr (by rw [ysGet_inc_set, if_neg hy])
                  (YInv_fs_congr (fun j => by
                    rw [alGet_fresh_write, if_neg (partPath_ne od (fun hc => hy hc.1))])
                    (hY y))
          · -- the segment file exists and is nonempty: reopen appends, no new header
            have hs0 : (ysGet st.cache.year_state y0).1 < rr := Nat.lt_of_not_le hroll
            have hcurS : alGet st.fs (partPath od y0 (ysGet st.cache.year_state y0).2) =
                some (Entry.header hdr :: List.map Entry.row
                  (List.drop ((ysGet st.cache.year_state y0).2 * rr)
                    (keyRows dcol y0 P))) := by
              rw [hcur, if_neg hl]
            rw [hcurS, Option.getD_some, if_neg (List.cons_ne_nil _ _)] at hgw
            unfold processRow
            rw [hparse]
            dsimp only
            rw [hgw]
            dsimp only
            simp only [increment_row]
            refine ⟨by simp [htot], ?_, rfl, rfl, rfl, hR, ?_, ?_, ?_⟩
            · rw [badKeyRows_append, if_neg (by rw [hk]; simp)]
              simp [hbad]
            · show (evictLoop mo st.cache.cache ++
                  [(y0, partPath od y0 (ysGet st.cache.year_state y0).2)]).length ≤ mo
              rw [List.length_append]
              have := evictLoop_length hmo st.cache.cache
              simp only [List.length_cons, List.length_nil]
              omega
            · intro e he
              have he' : e ∈ evictLoop mo st.cache.cache ++
                  [(y0, partPath od y0 (ysGet st.cache.year_state y0).2)] := he
              rcases List.mem_append.1 he' with h1 | h1
              · have hin := evictLoop_subset _ e h1
                have hne := alGet_none_key hhit e hin
                obtain ⟨hk1, hk2⟩ := hent e hin
                have hcond : rowKey dcol r ≠ some e.1 := by
                  rw [hk]
                  intro hh
                  injection hh with hh
                  exact hne hh.symm
                refine ⟨by rw [keyRows_append_other hcond]; exact hk1, ?_⟩
                rw [ysGet_inc_set, if_neg hne]
                exact hk2
              · simp only [List.mem_singleton] at h1
                subst h1
                refine ⟨?_, ?_⟩
                · rw [keyRows_append, if_pos hk]
                  simp
                · rw [ysGet_inc_set, if_pos rfl]
            · intro y
              by_cases hy : y = y0
              · subst hy
                rw [keyRows_append, if_pos hk, hEff]
                simp only [YInv, ysGet_inc_set, eq_self_iff_true, if_true, alGet_pure_write]
                refine ⟨?_, by omega, ?_, ?_, ?_, ?_, ?_⟩
                · rw [List.length_append, hm]
                  simp only [List.length_cons, List.length_nil]
                  omega
                · intro h
                  simp at h
                · intro h
                  omega
                · intro j hj
                  rw [if_neg (partPath_ne od (by
                    intro hc
                    omega))]
                  have hbound : j * rr + rr ≤ (keyRows dcol y P).length := by
                    have hmul2 : (j + 1) * rr ≤ (ysGet st.cache.year_state y).2 * rr :=
                      Nat.mul_le_mul_right rr (by omega)
                    rw [Nat.succ_mul] at hmul2
                    omega
                  rw [take_drop_append_frozen hbound]
                  exact hfull j hj
                · rw [hcur, if_neg hl, if_neg (by simp)]
                  have hbound : (ysGet st.cache.year_state y).2 * rr ≤
                      (keyRows dcol y P).length := by omega
                  rw [List.drop_append_of_le_length hbound]
                  simp
                · intro j hj
                  rw [if_neg (partPath_ne od (by
                    intro hc
                    omega))]
                  exact hnone j (by omega)
              · rw [keyRows_append_other (by
                  rw [hk]
                  intro hh
                  injection hh with hh
                  exact hy hh.symm)]
                exact YInv_ys_congr (by rw [ysGet_inc_set, if_neg hy])
                  (YInv_fs_congr (fun j => by
                    rw [alGet_pure_write, if_neg (partPath_ne od (fun hc => hy hc.1))])
                    (hY y))
    | none =>
      have hYy0 := hY y0
      rw [hEff] at hYy0
      obtain ⟨hys0, hcur, hnone⟩ := hYy0
      rw [hEff] at hrn
      have hrollb : rollNeeded st.cache y0 = false := hrn
      have hq0 : (ysGet st.cache.year_state y0).2 = 0 := by rw [hys0]
      have hs1 : (ysGet st.cache.year_state y0).1 = (keyRows dcol y0 P).length := by
        rw [hys0]
      cases hhit : alGet st.cache.cache y0 with
      | some p =>
        obtain ⟨hlne, hp⟩ := hent (y0, p) (alGet_mem hhit)
        dsimp only at hlne hp
        subst hp
        have hcar : cacheAfterRoll st.cache y0 = st.cache.cache := by
          unfold cacheAfterRoll
          simp [hrollb]
        have hhit' : alGet (cacheAfterRoll st.cache y0) y0 =
            some (partPath od y0 (ysGet st.cache.year_state y0).2) := by
          rw [hcar]
          exact hhit
        have hgw := get_writer_hit noFail st.cache st.fs y0 _ hhit'
        have hrows : rowsAfterRoll st.cache y0 = (ysGet st.cache.year_state y0).1 := by
          unfold rowsAfterRoll
          simp [hrollb]
        have hchunk : chunkAfterRoll st.cache y0 = (ysGet st.cache.year_state y0).2 := by
          unfold chunkAfterRoll
          simp [hrollb]
        rw [hrows, hchunk, hcar] at hgw
        unfold processRow
        rw [hparse]
        dsimp only
        rw [hgw]
        dsimp only
        simp only [increment_row]
        refine ⟨by simp [htot], ?_, hod, hhdr, hmo2, hR, ?_, ?_, ?_⟩
        · rw [badKeyRows_append, if_neg (by rw [hk]; simp)]
          simp [hbad]
        · show (alRemove st.cache.cache y0 ++
              [(y0, partPath od y0 (ysGet st.cache.year_state y0).2)]).length ≤ mo
          rw [List.length_append]
          have := alRemove_length_lt hhit
          simp only [List.length_cons, List.length_nil]
          omega
        · intro e he
          have he' : e ∈ alRemove st.cache.cache y0 ++
              [(y0, partPath od y0 (ysGet st.cache.year_state y0).2)] := he
          rcases List.mem_append.1 he' with h1 | h1
          · obtain ⟨hin, hne⟩ := alRemove_mem h1
            obtain ⟨hk1, hk2⟩ := hent e hin
            have hcond : rowKey dcol r ≠ some e.1 := by
              rw [hk]
              intro hh
              injection hh with hh
              exact hne hh.symm
            refine ⟨by rw [keyRows_append_other hcond]; exact hk1, ?_⟩
            rw [ysGet_inc_set, if_neg hne]
            exact hk2
          · simp only [List.mem_singleton] at h1
            subst h1
            refine ⟨?_, ?_⟩
            · rw [keyRows_append, if_pos hk]
              simp
            · rw [ysGet_inc_set, if_pos rfl]
        · intro y
          by_cases hy : y = y0
          · subst hy
            rw [keyRows_append, if_pos hk, hEff]
            simp only [YInv, ysGet_inc_set, eq_self_iff_true, if_true, alGet_pure_write]
            rw [hq0]
            simp only [eq_self_iff_true, if_true]
            refine ⟨by simp [hs1], ?_, ?_⟩
            · rw [hcur, if_neg hlne, if_neg (by simp)]
              simp
            · intro j hj
              rw [if_neg (partPath_ne od (by
                intro hc
                omega))]
              exact hnone j hj
          · rw [keyRows_append_other (by
              rw [hk]
              intro hh
              injection hh with hh
              exact hy hh.symm)]
            exact YInv_ys_congr (by rw [ysGet_inc_set, if_neg hy])
              (YInv_fs_congr (fun j => by
                rw [alGet_pure_write, if_neg (partPath_ne od (fun hc => hy hc.1))])
                (hY y))
      | none =>
        have hcar : cacheAfterRoll st.cache y0 = st.cache.cache := by
          unfold cacheAfterRoll
          simp [hrollb]
        have hmiss : alGet (cacheAfterRoll st.cache y0) y0 = none := by
          rw [hcar]
          exact hhit
        have hchunk : chunkAfterRoll st.cache y0 = (ysGet st.cache.year_state y0).2 := by
          unfold chunkAfterRoll
          simp [hrollb]
        have hrows : rowsAfterRoll st.cache y0 = (ysGet st.cache.year_state y0).1 := by
          unfold rowsAfterRoll
          simp [hrollb]
        have hgw := get_writer_open noFail st.cache st.fs y0 hmiss rfl
        rw [hchunk, hrows, hcar, hod, hhdr, hmo2, hq0] at hgw
        by_cases hl : keyRows dcol y0 P = []
        · -- first row of a fresh key: the file is created with its header
          have hnewfile : alGet st.fs (partPath od y0 0) = none := by
            rw [hcur, if_pos hl]
          rw [hnewfile] at hgw
          simp only [Option.getD_none, Option.isSome_none, Bool.false_eq_true, if_false,
            eq_self_iff_true, if_true] at hgw
          unfold processRow
          rw [hparse]
          dsimp only
          rw [hgw]
          dsimp only
          simp only [increment_row]
          refine ⟨by simp [htot], ?_, rfl, rfl, rfl, hR, ?_, ?_, ?_⟩
          · rw [badKeyRows_append, if_neg (by rw [hk]; simp)]
            simp [hbad]
          · show (evictLoop mo st.cache.cache ++ [(y0, partPath od y0 0)]).length ≤ mo
            rw [List.length_append]
            have := evictLoop_length hmo st.cache.cache
            simp only [List.length_cons, List.length_nil]
            omega
          · intro e he
            have he' : e ∈ evictLoop mo st.cache.cache ++ [(y0, partPath od y0 0)] := he
            rcases List.mem_append.1 he' with h1 | h1
            · have hin := evictLoop_subset _ e h1
              have hne := alGet_none_key hhit e hin
              obtain ⟨hk1, hk2⟩ := hent e hin
              have hcond : rowKey dcol r ≠ some e.1 := by
                rw [hk]
                intro hh
                injection hh with hh
                exact hne hh.symm
              refine ⟨by rw [keyRows_append_other hcond]; exact hk1, ?_⟩
              rw [ysGet_inc_set, if_neg hne]
              exact hk2
            · simp only [List.mem_singleton] at h1
              subst h1
              refine ⟨?_, ?_⟩
              · rw [keyRows_append, if_pos hk]
                simp
              · rw [ysGet_inc_set, if_pos rfl]
          · intro y
            by_cases hy : y = y0
            · subst hy
              rw [keyRows_append, if_pos hk, hEff]
              simp only [YInv, ysGet_inc_set, eq_self_iff_true, if_true, alGet_fresh_write]
              rw [hl]
              simp only [List.nil_append]
              refine ⟨by simp [hs1, hl, hq0], ?_, ?_⟩
              · simp
              · intro j hj
                rw [if_neg (partPath_ne od (by
                  intro hc
                  omega))]
                exact hnone j hj
            · rw [keyRows_append_other (by
                rw [hk]
                intro hh
                injection hh with hh
                exact hy hh.symm)]
              exact YInv_ys_congr (by rw [ysGet_inc_set, if_neg hy])
                (YInv_fs_congr (fun j => by
                  rw [alGet_fresh_write, if_neg (partPath_ne od (fun hc => hy hc.1))])
                  (hY y))
        · -- reopening the per-year file after an eviction: append, no new header
          have hcurS : alGet st.fs (partPath od y0 0) =
              some (Entry.header hdr :: List.map Entry.row (keyRows dcol y0 P)) := by
            rw [hcur, if_neg hl]
          rw [hcurS, Option.getD_some, if_neg (List.cons_ne_nil _ _)] at hgw
          unfold processRow
          rw [hparse]
          dsimp only
          rw [hgw]
          dsimp only
          simp only [increment_row]
          refine ⟨by simp [htot], ?_, rfl, rfl, rfl, hR, ?_, ?_, ?_⟩
          · rw [badKeyRows_append, if_neg (by rw [hk]; simp)]
            simp [hbad]
          · show (evictLoop mo st.cache.cache ++ [(y0, partPath od y0 0)]).length ≤ mo
            rw [List.length_append]
            have := evictLoop_length hmo st.cache.cache
            simp only [List.length_cons, List.length_nil]
            omega
          · intro e he
            have he' : e ∈ evictLoop mo st.cache.cache ++ [(y0, partPath od y0 0)] := he
            rcases List.mem_append.1 he' with h1 | h1
            · have hin := evictLoop_subset _ e h1
              have hne := alGet_none_key hhit e hin
              obtain ⟨hk1, hk2⟩ := hent e hin
              have hcond : rowKey dcol r ≠ some e.1 := by
                rw [hk]
                intro hh
                injection hh with hh
                exact hne hh.symm
              refine ⟨by rw [keyRows_append_other hcond]; exact hk1, ?_⟩
              rw [ysGet_inc_set, if_neg hne]
              exact hk2
            · simp only [List.mem_singleton] at h1
              subst h1
              refine ⟨?_, ?_⟩
              · rw [keyRows_append, if_pos hk]
                simp
              · rw [ysGet_inc_set, if_pos rfl]
          · intro y
            by_cases hy : y = y0
            · subst hy
              rw [keyRows_append, if_pos hk, hEff]
              simp only [YInv, ysGet_inc_set, eq_self_iff_true, if_true, alGet_pure_write]
              refine ⟨by simp [hs1], ?_, ?_⟩
              · rw [hcurS, if_neg (by simp)]
                simp
              · intro j hj
                rw [if_neg (partPath_ne od (by
                  intro hc
                  omega))]
                exact hnone j hj
            · rw [keyRows_append_other (by
                rw [hk]
                intro hh
                injection hh with hh
                exact hy hh.symm)]
              exact YInv_ys_congr (by rw [ysGet_inc_set, if_neg hy])
                (YInv_fs_congr (fun j => by
                  rw [alGet_pure_write, if_neg (partPath_ne od (fun hc => hy hc.1))])
                  (hY y))

/-! ### The full-run master invariant -/

/-- The master invariant holds after the whole row loop, starting from an
empty file system (plus, when configured, the freshly truncated bad-rows
file at a path that is not a partition path). -/
theorem masterRun (cfg : Config) (hbp : BadSafe cfg.out_dir cfg.bad_rows_csv)
    (hmo : 1 ≤ cfg.max_open) (header : List String) (rows : List Row) :
    MasterInv cfg.datetime_col cfg.out_dir header cfg.max_open cfg.max_rows_per_file rows
      (rows.foldl (processRow noFail cfg.datetime_col cfg.bad_rows_csv)
        (initState cfg [] header)) := by
  induction rows using List.reverseRecOn with
  | nil =>
    simp only [List.foldl_nil]
    refine init_masterInv cfg.datetime_col cfg.out_dir header cfg.max_open
      cfg.max_rows_per_file _ _ rfl ?_
    intro y j
    cases hb : cfg.bad_rows_csv with
    | none => rfl
    | some bp =>
      rw [hb] at hbp
      have hbp' : ∀ (z k : Nat), bp ≠ partPath cfg.out_dir z k := hbp
      have hne : ¬ partPath cfg.out_dir y j = bp := fun h => hbp' y j h.symm
      dsimp only
      rw [alGet_alSet, if_neg hne]
      rfl
  | append_singleton P r ih =>
    rw [List.foldl_append]
    simp only [List.foldl_cons, List.foldl_nil]
    exact masterStep cfg.datetime_col cfg.out_dir header cfg.max_open
      cfg.max_rows_per_file cfg.bad_rows_csv hbp hmo P _ r ih

/-! ### Claim C1: each file gets its header once; reopens only append -/

/-- `fs2` extends `fs`: every file existing in `fs` exists in `fs2` with its
old content as a prefix.  All file-system mutations during the run — the
appending `open(..., "a")`, `writeheader` on an absent-or-empty file only,
and `writerow` — have this shape. -/
def FsMono (fs fs2 : FS) : Prop :=
  ∀ p c, alGet fs p = some c → ∃ d, alGet fs2 p = some (c ++ d)

theorem fsMono_refl (fs : FS) : FsMono fs fs :=
  fun p c h => ⟨[], by rw [h, List.append_nil]⟩

theorem fsMono_trans {fs1 fs2 fs3 : FS} (h1 : FsMono fs1 fs2) (h2 : FsMono fs2 fs3) :
    FsMono fs1 fs3 := by
  intro p c h
  obtain ⟨d, hd⟩ := h1 p c h
  obtain ⟨e, he⟩ := h2 p _ hd
  exact ⟨d ++ e, by rw [he, List.append_assoc]⟩

theorem fsMono_fsAppend (fs : FS) (q : String) (e : Entry) :
    FsMono fs (fsAppend fs q e) := by
  intro p c h
  rw [alGet_fsAppend]
  by_cases hpq : p = q
  · subst hpq
    rw [if_pos rfl, h]
    exact ⟨[e], rfl⟩
  · rw [if_neg hpq, h]
    exact ⟨[], by rw [List.append_nil]⟩

theorem fsMono_alSet_of_none {fs : FS} {q : String} (v : List Entry)
    (hq : alGet fs q = none) : FsMono fs (alSet fs q v) := by
  intro p c h
  rw [alGet_alSet]
  by_cases hpq : p = q
  · subst hpq
    rw [h] at hq
    exact absurd hq (by simp)
  · rw [if_neg hpq, h]
    exact ⟨[], by rw [List.append_nil]⟩

theorem fsMono_badAppend (bp? : Option String) (fs : FS) (r : Row) (msg : String) :
    FsMono fs (badAppend bp? fs r msg) := by
  cases bp? with
  | none => exact fsMono_refl fs
  | some bp => exact fsMono_fsAppend fs bp _

theorem get_writer_fsMono (ofail : String → Bool) (c : WriterCache) (fs : FS) (y : Nat) :
    FsMono fs (get_writer ofail c fs y).1.2 := by
  cases hhit : alGet (cacheAfterRoll c y) y with
  | some p =>
    rw [get_writer_hit ofail c fs y p hhit]
    exact fsMono_refl fs
  | none =>
    cases hf : ofail (partPath c.out_dir y (chunkAfterRoll c y)) with
    | true =>
      rw [get_writer_fail ofail c fs y hhit hf]
      exact fsMono_refl fs
    | false =>
      rw [get_writer_open ofail c fs y hhit hf]
      dsimp only
      cases hex : alGet fs (partPath c.out_dir y (chunkAfterRoll c y)) with
      | none =>
        simp only [hex, Option.getD_none, Option.isSome_none, Bool.false_eq_true, if_false,
          eq_self_iff_true, if_true]
        exact fsMono_trans (fsMono_alSet_of_none _ hex) (fsMono_fsAppend _ _ _)
      | some c0 =>
        cases c0 with
        | nil =>
          simp only [hex, Option.getD_some, Option.isSome_some, if_true, eq_self_iff_true]
          exact fsMono_fsAppend fs _ _
        | cons e0 t0 =>
          simp only [hex, Option.getD_some, Option.isSome_some, if_true]
          rw [if_neg (List.cons_ne_nil _ _)]
          exact fsMono_refl fs

theorem processRow_fsMono (ofail : String → Bool) (dcol : String) (bp? : Option String)
    (st : LoopState) (r : Row) : FsMono st.fs (processRow ofail dcol bp? st r).fs := by
  unfold processRow
  cases hp : parse_year (rowGet r dcol) with
  | error msg =>
    dsimp only
    exact fsMono_badAppend bp? st.fs r msg
  | ok y =>
    dsimp only
    have hmono := get_writer_fsMono ofail st.cache st.fs y
    cases hgw : get_writer ofail st.cache st.fs y with
    | mk cf res =>
      cases cf with
      | mk c1 fs1 =>
        rw [hgw] at hmono
        cases res with
        | ok p =>
          dsimp only
          exact fsMono_trans hmono (fsMono_fsAppend fs1 p _)
        | error msg =>
          dsimp only
          exact fsMono_trans hmono (fsMono_badAppend bp? fs1 r msg)

theorem foldl_fsMono (ofail : String → Bool) (dcol : String) (bp? : Option String)
    (rows : List Row) : ∀ (st : LoopState),
    FsMono st.fs (rows.foldl (processRow ofail dcol bp?) st).fs := by
  induction rows with
  | nil =>
    intro st
    exact fsMono_refl st.fs
  | cons r rest ih =>
    intro st
    show FsMono st.fs
      ((rest.foldl (processRow ofail dcol bp?) (processRow ofail dcol bp? st r))).fs
    exact fsMono_trans (processRow_fsMono ofail dcol bp? st r) (ih _)

/-- Every partition file that exists under the master invariant holds the
header as its first line followed by data rows only. -/
theorem masterInv_file_shape {dcol od : String} {hdr : List String} {mo : Nat}
    {R : Option Nat} {P : List Row} {st : LoopState}
    (hInv : MasterInv dcol od hdr mo R P st) (y j : Nat) (c : List Entry)
    (hfile : alGet st.fs (partPath od y j) = some c) :
    ∃ rs : List Row, c = Entry.header hdr :: rs.map Entry.row := by
  obtain ⟨-, -, -, -, -, -, -, -, hY⟩ := hInv
  have hy := hY y
  cases hEff : effLimit R with
  | some rr =>
    rw [hEff] at hy
    obtain ⟨-, -, -, -, hfull, hcur, hnone⟩ := hy
    rcases Nat.lt_trichotomy j (ysGet st.cache.year_state y).2 with hj | hj | hj
    · rw [hfull j hj] at hfile
      injection hfile with h
      exact ⟨_, h.symm⟩
    · subst hj
      rw [hcur] at hfile
      by_cases hl : keyRows dcol y P = []
      · rw [if_pos hl] at hfile
        exact absurd hfile (by simp)
      · rw [if_neg hl] at hfile
        injection hfile with h
        exact ⟨_, h.symm⟩
    · rw [hnone j hj] at hfile
      exact absurd hfile (by simp)
  | none =>
    rw [hEff] at hy
    obtain ⟨-, hcur, hnone⟩ := hy
    rcases Nat.eq_zero_or_pos j with hj | hj
    · subst hj
      rw [hcur] at hfile
      by_cases hl : keyRows dcol y P = []
      · rw [if_pos hl] at hfile
        exact absurd hfile (by simp)
      · rw [if_neg hl] at hfile
        injection hfile with h
        exact ⟨_, h.symm⟩
    · rw [hnone j hj] at hfile
      exact absurd hfile (by simp)

/-- C1: in every run, every partition segment file that exists after
processing the first `i` rows contains the header exactly once — as its
first line, written at creation — followed by data rows only; and at every
later point `i' ≥ i` of the run (in particular after any eviction and
reopen of that key's writer at the same `(key, segment)` pair) the file
holds that earlier content unchanged as a prefix, extended only by further
data rows: no second header is ever written and rows are appended after
the existing content. -/
theorem header_written_once_and_reopen_appends (cfg : Config)
    (hbp : BadSafe cfg.out_dir cfg.bad_rows_csv) (hmo : 1 ≤ cfg.max_open)
    (header : List String) (rows : List Row) (i i' : Nat) (hle : i ≤ i')
    (y j : Nat) (c : List Entry)
    (hfile : alGet ((rows.take i).foldl
        (processRow noFail cfg.datetime_col cfg.bad_rows_csv)
        (initState cfg [] header)).fs (partPath cfg.out_dir y j) = some c) :
    (∃ rs : List Row, c = Entry.header header :: rs.map Entry.row) ∧
    (∃ ds : List Row,
      alGet ((rows.take i').foldl
          (processRow noFail cfg.datetime_col cfg.bad_rows_csv)
          (initState cfg [] header)).fs (partPath cfg.out_dir y j) =
        some (c ++ ds.map Entry.row)) := by
  have hI := masterRun cfg hbp hmo header (rows.take i)
  have hshape := masterInv_file_shape hI y j c hfile
  refine ⟨hshape, ?_⟩
  obtain ⟨rs, hrs⟩ := hshape
  have hsplit : rows.take i' = rows.take i ++ (rows.take i').drop i := by
    conv_lhs => rw [← List.take_append_drop i (rows.take i')]
    rw [List.take_take, Nat.min_eq_left hle]
  have hmono := foldl_fsMono noFail cfg.datetime_col cfg.bad_rows_csv
    ((rows.take i').drop i)
    ((rows.take i).foldl (processRow noFail cfg.datetime_col cfg.bad_rows_csv)
      (initState cfg [] header))
  obtain ⟨d, hd⟩ := hmono _ c hfile
  have hI' := masterRun cfg hbp hmo header (rows.take i')
  have hd' : alGet ((rows.take i').foldl
      (processRow noFail cfg.datetime_col cfg.bad_rows_csv)
      (initState cfg [] header)).fs (partPath cfg.out_dir y j) = some (c ++ d) := by
    rw [hsplit, List.foldl_append]
    exact hd
  obtain ⟨rs', hrs'⟩ := masterInv_file_shape hI' y j (c ++ d) hd'
  have hpre : rs.map Entry.row ++ d = rs'.map Entry.row := by
    rw [hrs, List.cons_append] at hrs'
    injection hrs' with hh ht
  have hdval : d = (rs'.drop rs.length).map Entry.row := by
    have h2 : ((rs.map Entry.row) ++ d).drop (rs.map Entry.row).length = d :=
      List.drop_left _ _
    rw [hpre] at h2
    rw [← h2, List.length_map, List.map_drop]
  refine ⟨rs'.drop rs.length, ?_⟩
  rw [hd', hdval]

theorem header_written_once_and_reopen_appends_witness :
    alGet ((([[("datetime", "2020-01-01")]] : List Row).take 1).foldl
        (processRow noFail "datetime" none)
        (initState (Config.mk "out" "datetime" 1 none none) [] ["datetime"])).fs
      (partPath "out" 2020 0) =
      some [Entry.header ["datetime"], Entry.row [("datetime", "2020-01-01")]] ∧
    ((∃ rs : List Row,
        [Entry.header ["datetime"], Entry.row [("datetime", "2020-01-01")]] =
          Entry.header ["datetime"] :: rs.map Entry.row) ∧
      (∃ ds : List Row,
        alGet ((([[("datetime", "2020-01-01")]] : List Row).take 1).foldl
            (processRow noFail "datetime" none)
            (initState (Config.mk "out" "datetime" 1 none none) [] ["datetime"])).fs
          (partPath "out" 2020 0) =
          some ([Entry.header ["datetime"], Entry.row [("datetime", "2020-01-01")]]
            ++ ds.map Entry.row))) := by
  have hfile : alGet ((([[("datetime", "2020-01-01")]] : List Row).take 1).foldl
      (processRow noFail "datetime" none)
      (initState (Config.mk "out" "datetime" 1 none none) [] ["datetime"])).fs
      (partPath "out" 2020 0) =
      some [Entry.header ["datetime"], Entry.row [("datetime", "2020-01-01")]] := by
    rfl
  exact ⟨hfile, header_written_once_and_reopen_appends
    (Config.mk "out" "datetime" 1 none none) trivial (by decide) ["datetime"]
    [[("datetime", "2020-01-01")]] 1 1 (Nat.le_refl 1) 2020 0 _ hfile⟩

/-! ### Claim C5: rollover produces ceil(M/R) bounded segments -/

/-- C5: with rollover limit `R ≥ 1` (`max_rows_per_file = R`), a key that
receives `M > R` successfully parsed rows in a run ends with exactly
`⌈M / R⌉` segment files — file `j` exists iff `j < (M + R - 1) / R` — each
holding exactly one header line followed by at most `R` data rows; and
after every prefix of the run the key's `rows_written` counter is `≤ R`. -/
theorem rollover_segment_files (cfg : Config)
    (hbp : BadSafe cfg.out_dir cfg.bad_rows_csv) (hmo : 1 ≤ cfg.max_open)
    (header : List String) (rows : List Row) (RR : Nat)
    (hRR : cfg.max_rows_per_file = some RR) (hR1 : 1 ≤ RR) (y : Nat)
    (hM : RR < (keyRows cfg.datetime_col y rows).length) :
    (∀ j, (alGet (rows.foldl (processRow noFail cfg.datetime_col cfg.bad_rows_csv)
          (initState cfg [] header)).fs (partPath cfg.out_dir y j)).isSome = true ↔
        j < ((keyRows cfg.datetime_col y rows).length + RR - 1) / RR) ∧
    (∀ j c, alGet (rows.foldl (processRow noFail cfg.datetime_col cfg.bad_rows_csv)
          (initState cfg [] header)).fs (partPath cfg.out_dir y j) = some c →
        ∃ rs : List Row, c = Entry.header header :: rs.map Entry.row ∧ rs.length ≤ RR) ∧
    (∀ i, (ysGet ((rows.take i).foldl
          (processRow noFail cfg.datetime_col cfg.bad_rows_csv)
          (initState cfg [] header)).cache.year_state y).1 ≤ RR) := by
  have hEff : effLimit cfg.max_rows_per_file = some RR := by
    rw [hRR]
    cases RR with
    | zero => omega
    | succ n => rfl
  obtain ⟨-, -, -, -, -, -, -, -, hY⟩ := masterRun cfg hbp hmo header rows
  have hy := hY y
  rw [hEff] at hy
  obtain ⟨hm, hsle, hzero, hpos, hfull, hcur, hnone⟩ := hy
  have hlne : keyRows cfg.datetime_col y rows ≠ [] := by
    intro h
    rw [h] at hM
    simp at hM
  have hs1 := hpos hlne
  have hceil : ((keyRows cfg.datetime_col y rows).length + RR - 1) / RR =
      (ysGet (rows.foldl (processRow noFail cfg.datetime_col cfg.bad_rows_csv)
        (initState cfg [] header)).cache.year_state y).2 + 1 := by
    have h1 : (keyRows cfg.datetime_col y rows).length + RR - 1 =
        ((ysGet (rows.foldl (processRow noFail cfg.datetime_col cfg.bad_rows_csv)
          (initState cfg [] header)).cache.year_state y).1 - 1) +
        ((ysGet (rows.foldl (processRow noFail cfg.datetime_col cfg.bad_rows_csv)
          (initState cfg [] header)).cache.year_state y).2 + 1) * RR := by
      rw [Nat.succ_mul]
      omega
    rw [h1, Nat.add_mul_div_right _ _ (by omega : 0 < RR),
      Nat.div_eq_of_lt (by omega), Nat.zero_add]
  refine ⟨?_, ?_, ?_⟩
  · intro j
    rw [hceil]
    constructor
    · intro hs
      by_contra hj
      rw [hnone j (by omega)] at hs
      simp at hs
    · intro hj
      rcases Nat.lt_succ_iff_lt_or_eq.1 hj with hj2 | hj2
      · rw [hfull j hj2]
        rfl
      · subst hj2
        rw [hcur, if_neg hlne]
        rfl
  · intro j c hc
    rcases Nat.lt_trichotomy j (ysGet (rows.foldl
        (processRow noFail cfg.datetime_col cfg.bad_rows_csv)
        (initState cfg [] header)).cache.year_state y).2 with hj | hj | hj
    · rw [hfull j hj] at hc
      injection hc with h
      refine ⟨_, h.symm, ?_⟩
      exact List.length_take_le _ _
    · subst hj
      rw [hcur, if_neg hlne] at hc
      injection hc with h
      refine ⟨_, h.symm, ?_⟩
      rw [List.length_drop]
      omega
    · rw [hnone j hj] at hc
      exact absurd hc (by simp)
  · intro i
    obtain ⟨-, -, -, -, -, -, -, -, hYi⟩ := masterRun cfg hbp hmo header (rows.take i)
    have hyi := hYi y
    rw [hEff] at hyi
    obtain ⟨-, hslei, -⟩ := hyi
    exact hslei

theorem rollover_segment_files_witness :
    1 < (keyRows "datetime" 2020
        [[("datetime", "2020-01-01")], [("datetime", "2020-02-02")]]).length ∧
    (∀ j, (alGet (([[("datetime", "2020-01-01")], [("datetime", "2020-02-02")]] :
          List Row).foldl (processRow noFail "datetime" none)
          (initState (Config.mk "out" "datetime" 1 (some 1) none) [] ["datetime"])).fs
        (partPath "out" 2020 j)).isSome = true ↔
      j < ((keyRows "datetime" 2020
        [[("datetime", "2020-01-01")], [("datetime", "2020-02-02")]]).length + 1 - 1) / 1) :=
  ⟨by decide,
    (rollover_segment_files (Config.mk "out" "datetime" 1 (some 1) none) trivial
      (by decide) ["datetime"]
      [[("datetime", "2020-01-01")], [("datetime", "2020-02-02")]] 1 rfl (by decide)
      2020 (by decide)).1⟩

/-! ### Claim C6: totals and per-key order preservation -/

/-- The data rows of a file's contents, in file order (header lines
skipped). -/
def entryRows (es : List Entry) : List Row :=
  es.filterMap (fun e => match e with
    | Entry.row r => some r
    | Entry.header _ => none)

theorem entryRows_map_row (rs : List Row) : entryRows (rs.map Entry.row) = rs := by
  induction rs with
  | nil => rfl
  | cons r t ih =>
    show entryRows (Entry.row r :: t.map Entry.row) = r :: t
    unfold entryRows at ih ⊢
    rw [List.filterMap_cons]
    dsimp only
    rw [ih]

theorem entryRows_header_rows (hh : List String) (rs : List Row) :
    entryRows (Entry.header hh :: rs.map Entry.row) = rs := by
  unfold entryRows
  rw [List.filterMap_cons]
  dsimp only
  exact entryRows_map_row rs

theorem flatten_slices {α : Type} (r : Nat) : ∀ (q : Nat) (l : List α),
    ((List.range q).map (fun j => (l.drop (j * r)).take r)).flatten ++ l.drop (q * r)
      = l := by
  intro q
  induction q with
  | zero =>
    intro l
    simp
  | succ n ih =>
    intro l
    rw [List.range_succ, List.map_append, List.flatten_append]
    simp only [List.map_cons, List.map_nil, List.flatten_cons, List.flatten_nil,
      List.append_nil]
    rw [List.append_assoc]
    have hdd : l.drop ((n + 1) * r) = (l.drop (n * r)).drop r := by
      rw [List.drop_drop, Nat.succ_mul]
    rw [hdd, List.take_append_drop]
    exact ih l

/-- Concatenating a key's segment files in segment order recovers exactly
the rows routed to that key, in input order. -/
theorem yinv_flatten {od : String} {hdr : List String} {eff : Option Nat} {y : Nat}
    {l : List Row} {ys : List (Nat × (Nat × Nat))} {fs : FS}
    (hy : YInv od hdr eff y l ys fs) :
    ((List.range ((ysGet ys y).2 + 1)).map
      (fun j => entryRows ((alGet fs (partPath od y j)).getD []))).flatten = l := by
  cases eff with
  | some rr =>
    obtain ⟨hm, hsle, hzero, hpos, hfull, hcur, hnone⟩ := hy
    by_cases hl : l = []
    · have h00 := hzero hl
      rw [if_pos hl] at hcur
      simp only [h00] at hcur ⊢
      rw [hl]
      simp [List.range_succ, hcur, entryRows]
    · rw [List.range_succ, List.map_append, List.flatten_append]
      have hmapeq : (List.range (ysGet ys y).2).map
          (fun j => entryRows ((alGet fs (partPath od y j)).getD [])) =
          (List.range (ysGet ys y).2).map (fun j => (l.drop (j * rr)).take rr) :=
        List.map_congr_left (fun j hj => by
          rw [hfull j (List.mem_range.1 hj), Option.getD_some]
          exact entryRows_header_rows hdr _)
      rw [hmapeq]
      simp only [List.map_cons, List.map_nil, List.flatten_cons, List.flatten_nil,
        List.append_nil]
      rw [hcur, if_neg hl, Option.getD_some, entryRows_header_rows]
      exact flatten_slices rr (ysGet ys y).2 l
  | none =>
    obtain ⟨hys0, hcur, hnone⟩ := hy
    simp only [hys0]
    by_cases hl : l = []
    · rw [if_pos hl] at hcur
      rw [hl]
      simp [List.range_succ, hcur, entryRows]
    · rw [if_neg hl] at hcur
      simp [List.range_succ, hcur, entryRows_header_rows]

theorem keyRows_length_count (dcol : String) (y : Nat) (rows : List Row) :
    (keyRows dcol y rows).length = (rows.filterMap (rowKey dcol)).count y := by
  induction rows with
  | nil => rfl
  | cons r t ih =>
    cases h : rowKey dcol r with
    | none =>
      have h1 : keyRows dcol y (r :: t) = keyRows dcol y t := by
        unfold keyRows
        rw [List.filter_cons, h]
        simp
      have h2 : (r :: t).filterMap (rowKey dcol) = t.filterMap (rowKey dcol) := by
        rw [List.filterMap_cons, h]
      rw [h1, h2, ih]
    | some z =>
      have h2 : (r :: t).filterMap (rowKey dcol) = z :: t.filterMap (rowKey dcol) := by
        rw [List.filterMap_cons, h]
      by_cases hzy : z = y
      · subst hzy
        have h1 : keyRows dcol z (r :: t) = r :: keyRows dcol z t := by
          unfold keyRows
          rw [List.filter_cons, h]
          simp
        rw [h1, h2, List.length_cons, ih, List.count_cons]
        simp
      · have h1 : keyRows dcol y (r :: t) = keyRows dcol y t := by
          unfold keyRows
          rw [List.filter_cons, h]
          simp [hzy]
        rw [h1, h2, ih, List.count_cons]
        simp [hzy]

theorem filterMap_rowKey_length (dcol : String) (rows : List Row) :
    (rows.filterMap (rowKey dcol)).length + (badKeyRows dcol rows).length
      = rows.length := by
  induction rows with
  | nil => rfl
  | cons r t ih =>
    cases h : rowKey dcol r with
    | none =>
      have h1 : badKeyRows dcol (r :: t) = r :: badKeyRows dcol t := by
        unfold badKeyRows
        rw [List.filter_cons, h]
        simp
      have h2 : (r :: t).filterMap (rowKey dcol) = t.filterMap (rowKey dcol) := by
        rw [List.filterMap_cons, h]
      rw [h1, h2, List.length_cons, List.length_cons]
      omega
    | some z =>
      have h1 : badKeyRows dcol (r :: t) = badKeyRows dcol t := by
        unfold badKeyRows
        rw [List.filter_cons, h]
        simp
      have h2 : (r :: t).filterMap (rowKey dcol) = z :: t.filterMap (rowKey dcol) := by
        rw [List.filterMap_cons, h]
      rw [h1, h2, List.length_cons, List.length_cons]
      omega

/-- C6: for a run over `N` rows spread across `K > max_open` distinct
years, the reported totals are `N` processed rows and one bad row per
unparsable key, the per-key row counts across all output files sum to `N`
minus the quarantined rows, and for every key the concatenation of its
segment files in segment order is exactly the subsequence of input rows
carrying that key, in original input order. -/
theorem totals_and_per_key_order (cfg : Config)
    (hbp : BadSafe cfg.out_dir cfg.bad_rows_csv) (hmo : 1 ≤ cfg.max_open)
    (header : List String) (rows : List Row)
    ( _hK : cfg.max_open < ((rows.filterMap (rowKey cfg.datetime_col)).dedup).length) :
    (rows.foldl (processRow noFail cfg.datetime_col cfg.bad_rows_csv)
        (initState cfg [] header)).total = rows.length ∧
    (rows.foldl (processRow noFail cfg.datetime_col cfg.bad_rows_csv)
        (initState cfg [] header)).bad = (badKeyRows cfg.datetime_col rows).length ∧
    (((rows.filterMap (rowKey cfg.datetime_col)).dedup).map
        (fun y => (keyRows cfg.datetime_col y rows).length)).sum
      = rows.length - (badKeyRows cfg.datetime_col rows).length ∧
    (∀ y, ((List.range ((ysGet (rows.foldl (processRow noFail cfg.datetime_col
          cfg.bad_rows_csv) (initState cfg [] header)).cache.year_state y).2 + 1)).map
        (fun j => entryRows ((alGet (rows.foldl (processRow noFail cfg.datetime_col
          cfg.bad_rows_csv) (initState cfg [] header)).fs
          (partPath cfg.out_dir y j)).getD []))).flatten
      = keyRows cfg.datetime_col y rows) := by
  obtain ⟨htot, hbad, -, -, -, -, -, -, hY⟩ := masterRun cfg hbp hmo header rows
  refine ⟨htot, hbad, ?_, fun y => yinv_flatten (hY y)⟩
  have hmc : ((rows.filterMap (rowKey cfg.datetime_col)).dedup).map
      (fun y => (keyRows cfg.datetime_col y rows).length) =
      ((rows.filterMap (rowKey cfg.datetime_col)).dedup).map
      (fun y => (rows.filterMap (rowKey cfg.datetime_col)).count y) :=
    List.map_congr_left (fun y _ => keyRows_length_count cfg.datetime_col y rows)
  rw [hmc, List.sum_map_count_dedup_eq_length]
  have := filterMap_rowKey_length cfg.datetime_col rows
  omega

theorem totals_and_per_key_order_witness :
    1 < ((([[("datetime", "2020-01-01")], [("datetime", "2021-01-01")]] :
          List Row).filterMap (rowKey "datetime")).dedup).length ∧
    (([[("datetime", "2020-01-01")], [("datetime", "2021-01-01")]] :
        List Row).foldl (processRow noFail "datetime" none)
        (initState (Config.mk "out" "datetime" 1 none none) [] ["datetime"])).total =
      ([[("datetime", "2020-01-01")], [("datetime", "2021-01-01")]] :
        List Row).length :=
  ⟨by decide,
    (totals_and_per_key_order (Config.mk "out" "datetime" 1 none none) trivial
      (by decide) ["datetime"]
      [[("datetime", "2020-01-01")], [("datetime", "2021-01-01")]] (by decide)).1⟩

end SplitData
